import Mathlib

/-!
# Pulse download manager: verification of the submission and resolver plumbing

Shallow embedding of

* `internal/download/youtube.go` (`ResolveYoutubeURL`, `GetVideoQualities`, `sanitizeFilename`),
* `internal/config/paths.go` (`GetPulseDir`, `GetStateDir`, `GetLogsDir`),
* `cmd/root.go` (`makeDownloadHandler`, the dispatcher of the root command),
* `cmd/server.go` (the dispatcher of `startHeadlessServer`).

Conventions.  Go strings are Lean strings (sequences of Unicode scalar values); Go `int`
fields are `Int`.  A Go `error` is `Option String` (`none` is `nil`).  Calls into packages
outside the repository (`youtube.Client`, `encoding/json`, `uuid`, `os`, `unicode`) are
explicit parameters.  `utils.Debug` only appends a line to the debug log file and never
influences control flow or results, so it is not threaded through the definitions.

Package `path/filepath` is a parameter of the functions of `paths.go`.  Its `Clean`, `Join`
and `IsAbs` are embedded for the platforms whose separator is `/`; the Windows variant, with
volume names and two separators, is not embedded.
-/

set_option autoImplicit false

namespace Pulse

/-! ## Package `strings` -/

/-- Substring test on rune sequences: `sub` occurs in `s` at some position. -/
def containsRunes : List Char → List Char → Bool
  | [], sub => sub.isEmpty
  | c :: cs, sub => sub.isPrefixOf (c :: cs) || containsRunes cs sub

/-- Go `strings.Contains(s, substr)`. -/
def stringsContains (s substr : String) : Bool :=
  containsRunes s.data substr.data

/-- Go `strings.HasPrefix(s, prefix)`. -/
def stringsHasPrefix (s pre : String) : Bool :=
  pre.data.isPrefixOf s.data

/-- Go `strings.HasSuffix(s, suffix)`. -/
def stringsHasSuffix (s suf : String) : Bool :=
  suf.data.reverse.isPrefixOf s.data.reverse

/-- Go `strings.ToLower(s)`: every rune is mapped through `unicode.ToLower`, which is the
parameter `lower`. -/
def stringsToLower (lower : Char → Char) (s : String) : String :=
  ⟨s.data.map lower⟩

/-- Worker of `stringsReplaceAll` for a non-empty `old`: `skip` counts the runes of a match
that are still to be dropped. -/
def replaceRunes (old new : List Char) : Nat → List Char → List Char
  | _, [] => []
  | k + 1, _ :: cs => replaceRunes old new k cs
  | 0, c :: cs =>
    if old.isPrefixOf (c :: cs) then new ++ replaceRunes old new (old.length - 1) cs
    else c :: replaceRunes old new 0 cs

/-- Go `strings.ReplaceAll(s, old, new)`: leftmost non-overlapping occurrences of `old` are
replaced; an empty `old` matches before every rune and at the end. -/
def stringsReplaceAll (s old new : String) : String :=
  if old.data.isEmpty then ⟨new.data ++ s.data.flatMap (fun c => c :: new.data)⟩
  else ⟨replaceRunes old.data new.data 0 s.data⟩

/-- Go `unicode.IsSpace`: the Latin-1 spaces and the `White_Space` property. -/
def unicodeIsSpace (c : Char) : Bool :=
  let n := c.toNat
  (0x09 ≤ n && n ≤ 0x0D) || n == 0x20 || n == 0x85 || n == 0xA0 || n == 0x1680 ||
    (0x2000 ≤ n && n ≤ 0x200A) || n == 0x2028 || n == 0x2029 || n == 0x202F ||
    n == 0x205F || n == 0x3000

/-- Go `strings.TrimSpace(s)`. -/
def stringsTrimSpace (s : String) : String :=
  ⟨((s.data.dropWhile unicodeIsSpace).reverse.dropWhile unicodeIsSpace).reverse⟩

/-! ## `internal/download/youtube.go` -/

/-- The fields of `youtube.Format` that the resolver reads. -/
structure Format where
  AudioChannels : Int
  Width : Int
  Bitrate : Int
  QualityLabel : String
  MimeType : String
  deriving DecidableEq, Repr

/-- The fields of `youtube.Video` that the resolver reads. -/
structure Video where
  Title : String
  Formats : List Format
  deriving DecidableEq, Repr

/-- The two methods of `youtube.Client` that the resolver calls.  `Except.error e` is a
non-nil `error` whose message is `e`. -/
structure Client where
  GetVideo : String → Except String Video
  GetStreamURL : Video → Format → Except String String

/-- The test `f.AudioChannels > 0 && f.Width > 0` of both loops over `video.Formats`. -/
def isProgressive (f : Format) : Bool :=
  decide (f.AudioChannels > 0) && decide (f.Width > 0)

/-- The slice `options` built by the first loop of `ResolveYoutubeURL`. -/
def progressiveOptions (formats : List Format) : List Format :=
  formats.filter isProgressive

/-- The loop condition of the closure `findQuality`. -/
def qualityMatches (lower : Char → Char) (q : String) (f : Format) : Bool :=
  stringsContains (stringsToLower lower f.QualityLabel) (stringsToLower lower q)

/-- The closure `findQuality`: the first option whose label contains `q`, or `nil`. -/
def findQuality (lower : Char → Char) (options : List Format) (q : String) : Option Format :=
  options.find? (qualityMatches lower q)

/-- One iteration of the fallback loop: `bestFormat == nil || options[i].Bitrate >
bestFormat.Bitrate`. -/
def pickHigher (best : Option Format) (f : Format) : Option Format :=
  match best with
  | none => some f
  | some b => if f.Bitrate > b.Bitrate then some f else some b

/-- The value of `bestFormat` after the quality lookup and the highest-bitrate fallback. -/
def selectFormat (lower : Char → Char) (options : List Format) (quality : String) :
    Option Format :=
  let bestFormat : Option Format :=
    if quality ≠ "" then findQuality lower options quality else none
  match bestFormat with
  | some f => some f
  | none => options.foldl pickHigher none

/-- The list `invalid` of `sanitizeFilename`. -/
def invalidFilenameChars : List String :=
  ["/", "\\", ":", "*", "?", "\"", "<", ">", "|"]

/-- Go `sanitizeFilename`. -/
def sanitizeFilename (name : String) : String :=
  stringsTrimSpace (invalidFilenameChars.foldl (fun n char => stringsReplaceAll n char "_") name)

/-- Lines 73-84 of `ResolveYoutubeURL`: the stream URL of the chosen format and the cleaned
title, or the wrapped error of `GetStreamURL`. -/
def resolveWith (client : Client) (lower : Char → Char) (video : Video) (bestFormat : Format) :
    String × String × Option String :=
  match client.GetStreamURL video bestFormat with
  | .error err => ("", "", some ("failed to get stream URL: " ++ err))
  | .ok url =>
    let title := sanitizeFilename video.Title
    let title :=
      if !stringsHasSuffix (stringsToLower lower title) ".mp4" then title ++ ".mp4" else title
    (url, title, none)

/-- Go `ResolveYoutubeURL`: the triple `(url, filename, err)`.  A `nil` `bestFormat` after
the fallback loop would be dereferenced at line 70; that run has no return value and is
reported here as the error `"nil dereference"` (it is shown unreachable below). -/
def ResolveYoutubeURL (client : Client) (lower : Char → Char) (videoURL quality : String) :
    String × String × Option String :=
  match client.GetVideo videoURL with
  | .error err => ("", "", some ("failed to get video info: " ++ err))
  | .ok video =>
    let options := progressiveOptions video.Formats
    if options.length = 0 then
      ("", "", some "no usable video formats found (progressive with audio)")
    else
      match selectFormat lower options quality with
      | none => ("", "", some "nil dereference")
      | some bestFormat => resolveWith client lower video bestFormat

/-- The body of the loop of `GetVideoQualities`: the pair `(qualities, seen)`. -/
def collectStep (acc : List String × List String) (f : Format) : List String × List String :=
  if decide (f.AudioChannels > 0) && decide (f.Width > 0) && decide (f.QualityLabel ≠ "") then
    if !acc.2.contains f.QualityLabel then (acc.1 ++ [f.QualityLabel], f.QualityLabel :: acc.2)
    else acc
  else acc

/-- The slice `qualities` after the loop of `GetVideoQualities`. -/
def collectQualities (formats : List Format) : List String :=
  (formats.foldl collectStep ([], [])).1

/-- Go `GetVideoQualities`: the triple `(qualities, title, err)`. -/
def GetVideoQualities (client : Client) (videoURL : String) :
    List String × String × Option String :=
  match client.GetVideo videoURL with
  | .error err => ([], "", some ("failed to get video info: " ++ err))
  | .ok video => (collectQualities video.Formats, sanitizeFilename video.Title, none)

/-- Position in the format list of the first progressive format labelled `q` (the length
of the list when there is none). -/
def firstLabelled (formats : List Format) (q : String) : Nat :=
  formats.findIdx (fun f => isProgressive f && f.QualityLabel == q)

/-! ## `cmd/root.go`: the `/download` handler -/

/-- Go `DownloadRequest`, the decoded JSON body. -/
structure DownloadRequest where
  URL : String
  Filename : String
  Path : String
  Quality : String
  deriving DecidableEq, Repr

/-- The parts of `*http.Request` that the handler reads. -/
structure Request where
  Method : String
  Body : String
  deriving DecidableEq, Repr

/-- What the handler writes to the `http.ResponseWriter`: the text of `http.Error` or the
JSON object given to the encoder. -/
inductive ResponseBody where
  | text (msg : String)
  | json (fields : List (String × String))
  deriving DecidableEq, Repr

/-- The response: status code and body. -/
structure Response where
  Status : Nat
  Body : ResponseBody
  deriving DecidableEq, Repr

/-- Go `DownloadDispatcher`, `func(url, path, filename, quality string)`: a procedure acting
on the state `σ` of whoever installed it. -/
abbrev DownloadDispatcher (σ : Type) := String → String → String → String → σ → σ

/-- Go `http.Error(w, msg, code)`. -/
def httpError (msg : String) (code : Nat) : Response :=
  ⟨code, .text msg⟩

/-- Go `makeDownloadHandler`.  `decode` is `json.NewDecoder(r.Body).Decode(&req)` and `isAbs`
is `filepath.IsAbs` of the platform; the handler returns the response and the state its
dispatcher leaves behind. -/
def makeDownloadHandler {σ : Type} (decode : String → Except String DownloadRequest)
    (isAbs : String → Bool) (dispatcher : DownloadDispatcher σ) (r : Request) (st : σ) :
    Response × σ :=
  if r.Method ≠ "POST" then (httpError "Method not allowed" 405, st)
  else
    match decode r.Body with
    | .error err => (httpError ("Invalid JSON: " ++ err) 400, st)
    | .ok req =>
      if req.URL = "" then (httpError "URL is required" 400, st)
      else if stringsContains req.Path ".." || stringsContains req.Filename ".." then
        (httpError "Invalid path" 400, st)
      else if stringsContains req.Filename "/" || stringsContains req.Filename "\\" then
        (httpError "Invalid filename" 400, st)
      else if isAbs req.Path then (httpError "Invalid path" 400, st)
      else
        (⟨200, .json [("status", "queued"), ("message", "Download request received")]⟩,
          dispatcher req.URL req.Path req.Filename req.Quality st)

/-- The arguments of one dispatcher call. -/
structure DispatchCall where
  url : String
  path : String
  filename : String
  quality : String
  deriving DecidableEq, Repr

/-- A dispatcher that only records its calls, oldest first. -/
def recordCall : DownloadDispatcher (List DispatchCall) :=
  fun url path filename quality log => log ++ [⟨url, path, filename, quality⟩]

/-- The conditions under which the handler accepts a decoded request. -/
def requestAccepted (isAbs : String → Bool) (req : DownloadRequest) : Prop :=
  req.URL ≠ "" ∧ stringsContains req.Path ".." = false ∧
    stringsContains req.Filename ".." = false ∧ stringsContains req.Filename "/" = false ∧
    stringsContains req.Filename "\\" = false ∧ isAbs req.Path = false

/-! ## `cmd/root.go`: the dispatcher of the root command -/

/-- The fields of `tui.StartDownloadMsg` set by the composite literal at lines 53-64 (the
type itself is declared in package `tui`); any other field keeps its zero value. -/
structure StartDownloadMsg where
  URL : String
  Path : String
  Filename : String
  deriving DecidableEq, Repr

/-- The closure passed to `startHTTPServer` by `rootCmd`.  The state is `serverProgram`:
`none` for a nil program, otherwise the messages given to `Send`, oldest first. -/
def tuiDispatcher : DownloadDispatcher (Option (List StartDownloadMsg)) :=
  fun url path filename _quality serverProgram =>
    match serverProgram with
    | none => none
    | some sent => some (sent ++ [{ URL := url, Path := path, Filename := filename }])

/-! ## `cmd/server.go`: the dispatcher of the headless server -/

/-- The fields of `settings.General` read by `startHeadlessServer`. -/
structure GeneralSettings where
  DefaultDownloadDir : String
  MaxConcurrentDownloads : Int
  deriving DecidableEq, Repr

/-- The fields of `settings.Connections` read by `startHeadlessServer`. -/
structure ConnectionSettings where
  MaxConnectionsPerHost : Int
  MaxGlobalConnections : Int
  UserAgent : String
  deriving DecidableEq, Repr

/-- The result of `config.LoadSettings`. -/
structure Settings where
  General : GeneralSettings
  Connections : ConnectionSettings
  deriving DecidableEq, Repr

/-- Go `types.RuntimeConfig`, the budget policy. -/
structure RuntimeConfig where
  MaxConnectionsPerHost : Int
  MaxGlobalConnections : Int
  UserAgent : String
  deriving DecidableEq, Repr

/-- Go `types.DownloadConfig`, the task descriptor, over the type `PS` of
`*types.ProgressState`.  `ProgressCh` is the one channel shared by all descriptors and is
left out. -/
structure DownloadConfig (PS : Type) where
  URL : String
  OutputPath : String
  ID : String
  Filename : String
  Quality : String
  Verbose : Bool
  State : PS
  Runtime : RuntimeConfig

/-- What the headless dispatcher acts on: the descriptors given to `pool.Add` so far (oldest
first), the number of identifiers drawn from `uuid.New`, and what `os.Getwd` returns (the
empty string when it fails, its error being discarded). -/
structure HeadlessWorld (PS : Type) where
  added : List (DownloadConfig PS)
  drawn : Nat
  cwd : String

/-- The closure `dispatcher` of `startHeadlessServer`.  `newProgressState` is
`types.NewProgressState` and `uuids n` is the string of the `n`-th value of `uuid.New`. -/
def headlessDispatcher {PS : Type} (settings : Settings) (headlessVerbose : Bool)
    (newProgressState : String → Int → PS) (uuids : Nat → String) :
    DownloadDispatcher (HeadlessWorld PS) :=
  fun url path filename quality w =>
    let path :=
      if path = "" then
        let path := settings.General.DefaultDownloadDir
        if path = "" then w.cwd else path
      else path
    let id := uuids w.drawn
    let cfg : DownloadConfig PS :=
      { URL := url
        OutputPath := path
        ID := id
        Filename := filename
        Quality := quality
        Verbose := headlessVerbose
        State := newProgressState id 0
        Runtime :=
          { MaxConnectionsPerHost := settings.Connections.MaxConnectionsPerHost
            MaxGlobalConnections := settings.Connections.MaxGlobalConnections
            UserAgent := settings.Connections.UserAgent } }
    { w with added := w.added ++ [cfg], drawn := w.drawn + 1 }

/-! ## Package `path/filepath` on the platforms with `/` as separator -/

/-- Go `strings.Join(elems, sep)`. -/
def stringsJoin : List String → String → String
  | [], _ => ""
  | [e], _ => e
  | e :: rest, sep => e ++ sep ++ stringsJoin rest sep

/-- The inner loop of the `..` case of `Clean`, on the reversed output buffer: `dropped` is
`out.index(out.w)` and the list holds the `out.w` bytes before it. -/
def cleanBacktrack (dotdot : Nat) : Char → List Char → List Char
  | _, [] => []
  | dropped, c :: rest =>
    if (c :: rest).length > dotdot && dropped != '/' then cleanBacktrack dotdot c rest
    else c :: rest

/-- The main loop of Go `filepath.Clean` with `Separator = '/'` and no volume name.  `path`
holds the bytes from index `r` on, `rout` is the output buffer reversed (so `out.w` is its
length); every iteration consumes at least one byte and one unit of `fuel`. -/
def cleanLoop (rooted : Bool) : Nat → List Char → List Char → Nat → List Char
  | 0, _, rout, _ => rout
  | fuel + 1, path, rout, dotdot =>
    match path with
    | [] => rout
    | c :: rest =>
      if c == '/' then
        cleanLoop rooted fuel rest rout dotdot
      else if c == '.' && (rest.isEmpty || rest.head? == some '/') then
        cleanLoop rooted fuel rest rout dotdot
      else if c == '.' && rest.head? == some '.' &&
          (rest.tail.isEmpty || rest.tail.head? == some '/') then
        if rout.length > dotdot then
          match rout with
          | [] => cleanLoop rooted fuel rest.tail [] dotdot
          | d :: r => cleanLoop rooted fuel rest.tail (cleanBacktrack dotdot d r) dotdot
        else if !rooted then
          let rout := if rout.length > 0 then '/' :: rout else rout
          cleanLoop rooted fuel rest.tail ('.' :: '.' :: rout) (rout.length + 2)
        else
          cleanLoop rooted fuel rest.tail rout dotdot
      else
        let rout :=
          if (rooted && rout.length != 1) || (!rooted && rout.length != 0) then '/' :: rout
          else rout
        cleanLoop rooted fuel ((c :: rest).dropWhile (fun b => b != '/'))
          (((c :: rest).takeWhile (fun b => b != '/')).reverse ++ rout) dotdot

/-- Go `filepath.Clean` with `Separator = '/'` and no volume name. -/
def filepathClean (path : String) : String :=
  if path = "" then "."
  else
    let rooted := path.data.head? == some '/'
    let rout :=
      if rooted then cleanLoop rooted path.data.length path.data.tail ['/'] 1
      else cleanLoop rooted path.data.length path.data [] 0
    if rout.length == 0 then "." else ⟨rout.reverse⟩

/-- Go `filepath.Join` with `Separator = '/'`: the elements from the first non-empty one on
are joined and cleaned. -/
def filepathJoin : List String → String
  | [] => ""
  | e :: rest => if e ≠ "" then filepathClean (stringsJoin (e :: rest) "/") else filepathJoin rest

/-- Go `filepath.IsAbs` on Unix. -/
def filepathIsAbs (path : String) : Bool :=
  stringsHasPrefix path "/"

/-- The functions of `path/filepath` used by package `config`, as compiled for one
platform. -/
structure Filepath where
  Join : List String → String
  IsAbs : String → Bool

/-- Package `path/filepath` as compiled for linux and darwin. -/
def unixFilepath : Filepath := ⟨filepathJoin, filepathIsAbs⟩

/-! ### The output buffer of `Clean`, as described in the proofs -/

/-- Whether `Clean` writes a separator before the next element. -/
def needSep (rooted : Bool) (rout : List Char) : Bool :=
  (rooted && rout.length != 1) || (!rooted && rout.length != 0)

/-- The output buffer (reversed) after an element is appended to it. -/
def pushElem (rooted : Bool) (rout e : List Char) : List Char :=
  e.reverse ++ (if needSep rooted rout then '/' :: rout else rout)

/-- The output buffer (reversed) of a relative path that consists of `k` elements `..`. -/
def upsBuf : Nat → List Char
  | 0 => []
  | k + 1 => '.' :: '.' :: (if (upsBuf k).length > 0 then '/' :: upsBuf k else upsBuf k)

/-- The part of the output buffer (reversed) that `..` cannot remove. -/
def baseBuf (rooted : Bool) (k : Nat) : List Char :=
  if rooted then ['/'] else upsBuf k

/-- The output buffer (reversed) that holds the base and then the elements `es`. -/
def encBuf (rooted : Bool) (k : Nat) (es : List (List Char)) : List Char :=
  es.foldl (pushElem rooted) (baseBuf rooted k)

/-- An element that `Clean` copies: not empty, without separator, neither `.` nor `..`. -/
def plainElem (e : List Char) : Prop :=
  e ≠ [] ∧ '/' ∉ e ∧ e ≠ ['.'] ∧ e ≠ ['.', '.']

/-- The loop of `Clean` with exactly as much fuel as there are bytes left. -/
def cleanRun (rooted : Bool) (path rout : List Char) (dotdot : Nat) : List Char :=
  cleanLoop rooted path.length path rout dotdot

/-- An input fragment ends an element: it is empty or begins with a separator. -/
def atBoundary (tail : List Char) : Prop :=
  tail = [] ∨ tail.head? = some '/'

/-- The buffers that the loop can reach: only a relative path keeps leading `..`, and every
element above the base is plain. -/
def wfBuf (rooted : Bool) (k : Nat) (es : List (List Char)) : Prop :=
  (rooted = true → k = 0) ∧ ∀ e ∈ es, plainElem e

/-- An input fragment that is empty or ends with a separator. -/
def endsWithSep (z : List Char) : Prop :=
  z = [] ∨ z.getLast? = some '/'

/-- The separator that `Clean` writes before the next element, as text. -/
def sepText (rooted : Bool) (rout : List Char) : List Char :=
  if needSep rooted rout then ['/'] else []

/-- The text that the elements `es` add to the buffer `rout`. -/
def elemsText (rooted : Bool) : List Char → List (List Char) → List Char
  | _, [] => []
  | rout, e :: es => sepText rooted rout ++ e ++ elemsText rooted (pushElem rooted rout e) es

/-! ## `internal/config/paths.go` -/

/-- What `GetPulseDir` reads from its environment: `runtime.GOOS`, three environment
variables (empty when unset) and the string returned by `os.UserHomeDir`, whose error is
discarded (it is empty when `$HOME` is not set). -/
structure Env where
  GOOS : String
  APPDATA : String
  USERPROFILE : String
  XDG_CONFIG_HOME : String
  home : String
  deriving DecidableEq, Repr

/-- Go `GetPulseDir`, with the platform's `path/filepath`. -/
def GetPulseDir (fp : Filepath) (env : Env) : String :=
  if env.GOOS = "windows" then
    let appData := env.APPDATA
    let appData :=
      if appData = "" then fp.Join [env.USERPROFILE, "AppData", "Roaming"] else appData
    fp.Join [appData, "pulse"]
  else if env.GOOS = "darwin" then
    fp.Join [env.home, "Library", "Application Support", "pulse"]
  else
    let configHome := env.XDG_CONFIG_HOME
    let configHome := if configHome = "" then fp.Join [env.home, ".config"] else configHome
    fp.Join [configHome, "pulse"]

/-- Go `GetStateDir`. -/
def GetStateDir (fp : Filepath) (env : Env) : String :=
  fp.Join [GetPulseDir fp env, "state"]

/-- Go `GetLogsDir`. -/
def GetLogsDir (fp : Filepath) (env : Env) : String :=
  fp.Join [GetPulseDir fp env, "logs"]

/-! ### Sample data -/

/-- Four formats: one 360p and two 720p progressive streams and a video-only 1080p stream. -/
def sampleFormats : List Format :=
  [⟨2, 640, 500, "360p", "video/mp4"⟩, ⟨0, 1920, 9000, "1080p", "video/mp4"⟩,
   ⟨2, 1280, 900, "720p", "video/mp4"⟩, ⟨2, 1280, 900, "720p60", "video/mp4"⟩]

/-- A video with the sample formats. -/
def sampleVideo : Video := ⟨"My: Video", sampleFormats⟩

/-- A client that knows one video and derives the stream URL from the quality label. -/
def sampleClient : Client :=
  ⟨fun u => if u = "https://youtu.be/x" then .ok sampleVideo else .error "not found",
   fun _ f => .ok ("https://cdn/" ++ f.QualityLabel)⟩

/-- A decoder that reads every body as one fixed request. -/
def sampleDecode : String → Except String DownloadRequest :=
  fun _ => .ok ⟨"https://youtu.be/x", "clip.mp4", "videos", "720p"⟩

/-- A request with method POST. -/
def sampleRequest : Request := ⟨"POST", "{}"⟩

/-! ## Auxiliary facts -/

theorem containsRunes_iff_infix (s sub : List Char) :
    containsRunes s sub = true ↔ sub <:+: s := by
  induction s with
  | nil =>
    cases sub with
    | nil => simp [containsRunes]
    | cons a t => simp [containsRunes]
  | cons c cs ih =>
    simp only [containsRunes, Bool.or_eq_true, ih, List.isPrefixOf_iff_prefix]
    rw [List.infix_cons_iff]

theorem stringsContains_iff (s sub : String) :
    stringsContains s sub = true ↔ sub.data <:+: s.data :=
  containsRunes_iff_infix s.data sub.data

theorem stringsHasSuffix_iff (s suf : String) :
    stringsHasSuffix s suf = true ↔ suf.data <:+ s.data := by
  unfold stringsHasSuffix
  rw [List.isPrefixOf_iff_prefix, List.reverse_prefix]

theorem stringsHasPrefix_iff (s pre : String) :
    stringsHasPrefix s pre = true ↔ pre.data <+: s.data := by
  unfold stringsHasPrefix
  rw [List.isPrefixOf_iff_prefix]

/-- The fallback loop started from a candidate `b`: it keeps `b` when nothing is strictly
above it, and otherwise ends on the first element that is a maximum. -/
theorem foldl_pickHigher_some (l : List Format) (b : Format) :
    ∃ r, l.foldl pickHigher (some b) = some r ∧
      ((r = b ∧ ∀ g ∈ l, g.Bitrate ≤ b.Bitrate) ∨
        (∃ pre post, l = pre ++ r :: post ∧ b.Bitrate < r.Bitrate ∧
          (∀ g ∈ pre, g.Bitrate < r.Bitrate) ∧ ∀ g ∈ post, g.Bitrate ≤ r.Bitrate)) := by
  induction l generalizing b with
  | nil => exact ⟨b, rfl, Or.inl ⟨rfl, by simp⟩⟩
  | cons f l ih =>
    by_cases hfb : f.Bitrate > b.Bitrate
    · obtain ⟨r, hr, hcase⟩ := ih f
      refine ⟨r, by simp [List.foldl, pickHigher, hfb, hr], Or.inr ?_⟩
      rcases hcase with ⟨rfl, hall⟩ | ⟨pre, post, hl, hlt, hpre, hpost⟩
      · exact ⟨[], l, rfl, hfb, by simp, hall⟩
      · refine ⟨f :: pre, post, by simp [hl], by omega, ?_, hpost⟩
        intro g hg
        rcases List.mem_cons.1 hg with rfl | hg
        · exact hlt
        · exact hpre g hg
    · obtain ⟨r, hr, hcase⟩ := ih b
      refine ⟨r, by simp [List.foldl, pickHigher, hfb, hr], ?_⟩
      rcases hcase with ⟨rfl, hall⟩ | ⟨pre, post, hl, hlt, hpre, hpost⟩
      · refine Or.inl ⟨rfl, ?_⟩
        intro g hg
        rcases List.mem_cons.1 hg with rfl | hg
        · omega
        · exact hall g hg
      · refine Or.inr ⟨f :: pre, post, by simp [hl], hlt, ?_, hpost⟩
        intro g hg
        rcases List.mem_cons.1 hg with rfl | hg
        · omega
        · exact hpre g hg

/-- The fallback loop on a non-empty slice ends on the first element of maximal bitrate. -/
theorem foldl_pickHigher_none (l : List Format) (hl : l ≠ []) :
    ∃ pre r post, l.foldl pickHigher none = some r ∧ l = pre ++ r :: post ∧
      (∀ g ∈ pre, g.Bitrate < r.Bitrate) ∧ ∀ g ∈ post, g.Bitrate ≤ r.Bitrate := by
  cases l with
  | nil => exact absurd rfl hl
  | cons f l =>
    obtain ⟨r, hr, hcase⟩ := foldl_pickHigher_some l f
    rcases hcase with ⟨rfl, hall⟩ | ⟨pre, post, hl, hlt, hpre, hpost⟩
    · exact ⟨[], r, l, by simpa [List.foldl, pickHigher] using hr, rfl, by simp, hall⟩
    · refine ⟨f :: pre, r, post, by simpa [List.foldl, pickHigher] using hr, by simp [hl], ?_,
        hpost⟩
      intro g hg
      rcases List.mem_cons.1 hg with rfl | hg
      · exact hlt
      · exact hpre g hg

/-- With the empty hint the resolver goes straight to the fallback loop. -/
theorem selectFormat_empty (lower : Char → Char) (options : List Format) :
    selectFormat lower options "" = options.foldl pickHigher none := by
  simp [selectFormat]

/-- A hint that matches no option leaves `bestFormat` nil before the fallback loop. -/
theorem selectFormat_no_match (lower : Char → Char) (options : List Format) (q : String)
    (hno : ∀ g ∈ options, qualityMatches lower q g = false) :
    selectFormat lower options q = options.foldl pickHigher none := by
  have hfind : findQuality lower options q = none := by
    unfold findQuality
    rw [List.find?_eq_none]
    intro g hg
    simp [hno g hg]
  unfold selectFormat
  by_cases hq : q = ""
  · simp [hq]
  · simp [hq, hfind]

/-- A non-empty hint that matches some option selects the first matching option. -/
theorem selectFormat_match (lower : Char → Char) (options : List Format) (q : String)
    (hq : q ≠ "") (f : Format) (hf : findQuality lower options q = some f) :
    selectFormat lower options q = some f := by
  simp [selectFormat, hq, hf]

/-- Position of the fallback choice in the unfiltered format list. -/
theorem fallback_first_max (formats : List Format)
    (hex : ∃ g ∈ formats, isProgressive g = true) :
    ∃ pre f post, (progressiveOptions formats).foldl pickHigher none = some f ∧
      formats = pre ++ f :: post ∧ isProgressive f = true ∧
      (∀ g ∈ formats, isProgressive g = true → g.Bitrate ≤ f.Bitrate) ∧
      (∀ g ∈ pre, isProgressive g = true → g.Bitrate < f.Bitrate) := by
  have hne : progressiveOptions formats ≠ [] := by
    obtain ⟨g, hg, hp⟩ := hex
    intro h
    have : g ∈ progressiveOptions formats := List.mem_filter.2 ⟨hg, hp⟩
    rw [h] at this
    exact absurd this (List.not_mem_nil g)
  obtain ⟨pre, r, post, hsel, hsplit, hpre, hpost⟩ := foldl_pickHigher_none _ hne
  have hsplit2 : List.filter isProgressive formats = pre ++ ([r] ++ post) := by
    simpa [progressiveOptions] using hsplit
  obtain ⟨l₁, l₂, hform, hl₁, hl₂⟩ := List.filter_eq_append_iff.1 hsplit2
  have hl₂c : List.filter isProgressive l₂ = r :: post := by simpa using hl₂
  obtain ⟨m₁, m₂, hl₂eq, hm₁, hr, hm₂⟩ := List.filter_eq_cons_iff.1 hl₂c
  refine ⟨l₁ ++ m₁, r, m₂, hsel, by simp [hform, hl₂eq], hr, ?_, ?_⟩
  · intro g hg hp
    have hmem : g ∈ progressiveOptions formats := List.mem_filter.2 ⟨hg, hp⟩
    rw [hsplit] at hmem
    rcases List.mem_append.1 hmem with h | h
    · exact le_of_lt (hpre g h)
    · rcases List.mem_cons.1 h with rfl | h
      · exact le_refl _
      · exact hpost g h
  · intro g hg hp
    rcases List.mem_append.1 hg with h | h
    · exact hpre g (hl₁ ▸ List.mem_filter.2 ⟨h, hp⟩)
    · exact absurd hp (hm₁ g h)

/-- Position of the hinted choice in the unfiltered format list. -/
theorem findQuality_first_match (lower : Char → Char) (formats : List Format) (q : String)
    (hex : ∃ g ∈ formats, isProgressive g = true ∧ qualityMatches lower q g = true) :
    ∃ pre f post, findQuality lower (progressiveOptions formats) q = some f ∧
      formats = pre ++ f :: post ∧ isProgressive f = true ∧ qualityMatches lower q f = true ∧
      (∀ g ∈ pre, ¬ (isProgressive g = true ∧ qualityMatches lower q g = true)) := by
  unfold findQuality progressiveOptions
  rw [List.find?_filter]
  cases hfind : List.find? (fun a => decide (isProgressive a = true ∧
      qualityMatches lower q a = true)) formats with
  | none =>
    obtain ⟨g, hg, hp, hm⟩ := hex
    have := List.find?_eq_none.1 hfind g hg
    simp [hp, hm] at this
  | some f =>
    obtain ⟨hpf, pre, post, hsplit, hpre⟩ := List.find?_eq_some.1 hfind
    simp only [decide_eq_true_eq] at hpf
    refine ⟨pre, f, post, rfl, hsplit, hpf.1, hpf.2, ?_⟩
    intro g hg hboth
    have := hpre g hg
    simp [hboth.1, hboth.2] at this

/-- On a non-empty slice of options the selection never ends with a nil `bestFormat`. -/
theorem selectFormat_some (lower : Char → Char) (options : List Format) (q : String)
    (hne : options ≠ []) : ∃ f, selectFormat lower options q = some f := by
  unfold selectFormat
  cases hbest : (if q ≠ "" then findQuality lower options q else none) with
  | some f => exact ⟨f, rfl⟩
  | none =>
    obtain ⟨_, r, _, hr, _⟩ := foldl_pickHigher_none options hne
    exact ⟨r, hr⟩

theorem progressiveOptions_ne_nil (formats : List Format)
    (hex : ∃ g ∈ formats, isProgressive g = true) : progressiveOptions formats ≠ [] := by
  obtain ⟨g, hg, hp⟩ := hex
  intro h
  have : g ∈ progressiveOptions formats := List.mem_filter.2 ⟨hg, hp⟩
  rw [h] at this
  exact absurd this (List.not_mem_nil g)

/-- Unfolding of `ResolveYoutubeURL` once the video and the selected format are known. -/
theorem resolve_eq_resolveWith (client : Client) (lower : Char → Char) (videoURL q : String)
    (video : Video) (f : Format) (hv : client.GetVideo videoURL = .ok video)
    (hne : progressiveOptions video.Formats ≠ [])
    (hsel : selectFormat lower (progressiveOptions video.Formats) q = some f) :
    ResolveYoutubeURL client lower videoURL q = resolveWith client lower video f := by
  have hlen : (progressiveOptions video.Formats).length ≠ 0 := by
    simpa [List.length_eq_zero] using hne
  simp [ResolveYoutubeURL, hv, hlen, hsel]

/-- The filename computed at lines 79-82 is never empty. -/
theorem mp4_title_ne_empty (lower : Char → Char) (title : String) :
    (if !stringsHasSuffix (stringsToLower lower title) ".mp4" then title ++ ".mp4" else title)
      ≠ "" := by
  by_cases hs : stringsHasSuffix (stringsToLower lower title) ".mp4" = true
  · simp only [hs, Bool.not_true, Bool.false_eq_true, if_false]
    intro h
    rw [stringsHasSuffix_iff] at hs
    subst h
    have hlen := List.IsSuffix.length_le hs
    simp [stringsToLower] at hlen
  · simp only [Bool.not_eq_true] at hs
    simp only [hs, Bool.not_false, if_true]
    intro h
    have hd := congrArg String.data h
    rw [String.data_append] at hd
    have hl := congrArg List.length hd
    simp at hl

/-! ## Claims on `ResolveYoutubeURL` -/

/-- C1: for a video with at least one progressive format and a quality hint that no
progressive format's label contains (both lowered; such a hint is never empty, as every
label contains the empty string), the resolver selects the first progressive format of
maximal bitrate, exactly as for the empty hint, and its result is the result for the empty
hint: the only errors left are those of `GetStreamURL` on that format. -/
theorem resolve_unmatched_hint_falls_back (client : Client) (lower : Char → Char)
    (videoURL quality : String) (video : Video)
    (hv : client.GetVideo videoURL = .ok video)
    (hex : ∃ g ∈ video.Formats, isProgressive g = true)
    (hno : ∀ g ∈ video.Formats, isProgressive g = true →
      stringsContains (stringsToLower lower g.QualityLabel) (stringsToLower lower quality)
        = false) :
    ∃ pre f post,
      selectFormat lower (progressiveOptions video.Formats) quality = some f ∧
      selectFormat lower (progressiveOptions video.Formats) "" = some f ∧
      video.Formats = pre ++ f :: post ∧ isProgressive f = true ∧
      (∀ g ∈ video.Formats, isProgressive g = true → g.Bitrate ≤ f.Bitrate) ∧
      (∀ g ∈ pre, isProgressive g = true → g.Bitrate < f.Bitrate) ∧
      ResolveYoutubeURL client lower videoURL quality = resolveWith client lower video f ∧
      ResolveYoutubeURL client lower videoURL quality
        = ResolveYoutubeURL client lower videoURL "" := by
  have hne := progressiveOptions_ne_nil video.Formats hex
  obtain ⟨pre, f, post, hsel, hsplit, hprog, hmax, hfirst⟩ :=
    fallback_first_max video.Formats hex
  have hno2 : ∀ g ∈ progressiveOptions video.Formats, qualityMatches lower quality g = false := by
    intro g hg
    obtain ⟨hg1, hg2⟩ := List.mem_filter.1 hg
    exact hno g hg1 hg2
  have h1 : selectFormat lower (progressiveOptions video.Formats) quality = some f := by
    rw [selectFormat_no_match lower _ quality hno2, hsel]
  have h2 : selectFormat lower (progressiveOptions video.Formats) "" = some f := by
    rw [selectFormat_empty, hsel]
  refine ⟨pre, f, post, h1, h2, hsplit, hprog, hmax, hfirst, ?_, ?_⟩
  · exact resolve_eq_resolveWith client lower videoURL quality video f hv hne h1
  · rw [resolve_eq_resolveWith client lower videoURL quality video f hv hne h1,
      resolve_eq_resolveWith client lower videoURL "" video f hv hne h2]

/-- C1 at the sample video with the hint `4k`: the 720p stream (bitrate 900) is chosen. -/
theorem resolve_unmatched_hint_falls_back_witness :
    ∃ pre f post,
      selectFormat Char.toLower (progressiveOptions sampleVideo.Formats) "4k" = some f ∧
      selectFormat Char.toLower (progressiveOptions sampleVideo.Formats) "" = some f ∧
      sampleVideo.Formats = pre ++ f :: post ∧ isProgressive f = true ∧
      (∀ g ∈ sampleVideo.Formats, isProgressive g = true → g.Bitrate ≤ f.Bitrate) ∧
      (∀ g ∈ pre, isProgressive g = true → g.Bitrate < f.Bitrate) ∧
      ResolveYoutubeURL sampleClient Char.toLower "https://youtu.be/x" "4k"
        = resolveWith sampleClient Char.toLower sampleVideo f ∧
      ResolveYoutubeURL sampleClient Char.toLower "https://youtu.be/x" "4k"
        = ResolveYoutubeURL sampleClient Char.toLower "https://youtu.be/x" "" :=
  resolve_unmatched_hint_falls_back sampleClient Char.toLower "https://youtu.be/x" "4k"
    sampleVideo rfl (by decide) (by decide)

/-- C10: a non-empty hint that some progressive format's label contains (both lowered)
selects the first such format in the video's format order, whatever the bitrates; the empty
hint selects the first progressive format whose bitrate is at least that of every
progressive format.  In both cases the result is built from the selected format. -/
theorem resolve_selection_rule (client : Client) (lower : Char → Char)
    (videoURL quality : String) (video : Video)
    (hv : client.GetVideo videoURL = .ok video) :
    (quality ≠ "" →
      (∃ g ∈ video.Formats, isProgressive g = true ∧
        stringsContains (stringsToLower lower g.QualityLabel) (stringsToLower lower quality)
          = true) →
      ∃ pre f post, video.Formats = pre ++ f :: post ∧ isProgressive f = true ∧
        stringsContains (stringsToLower lower f.QualityLabel) (stringsToLower lower quality)
          = true ∧
        (∀ g ∈ pre, ¬ (isProgressive g = true ∧
          stringsContains (stringsToLower lower g.QualityLabel)
            (stringsToLower lower quality) = true)) ∧
        selectFormat lower (progressiveOptions video.Formats) quality = some f ∧
        ResolveYoutubeURL client lower videoURL quality = resolveWith client lower video f) ∧
    ((∃ g ∈ video.Formats, isProgressive g = true) →
      ∃ pre f post, video.Formats = pre ++ f :: post ∧ isProgressive f = true ∧
        (∀ g ∈ video.Formats, isProgressive g = true → g.Bitrate ≤ f.Bitrate) ∧
        (∀ g ∈ pre, isProgressive g = true → g.Bitrate < f.Bitrate) ∧
        selectFormat lower (progressiveOptions video.Formats) "" = some f ∧
        ResolveYoutubeURL client lower videoURL "" = resolveWith client lower video f) := by
  constructor
  · intro hq hex
    obtain ⟨pre, f, post, hfind, hsplit, hprog, hmatch, hfirst⟩ :=
      findQuality_first_match lower video.Formats quality hex
    have hne : progressiveOptions video.Formats ≠ [] := by
      obtain ⟨g, hg, hp, _⟩ := hex
      exact progressiveOptions_ne_nil video.Formats ⟨g, hg, hp⟩
    have hsel := selectFormat_match lower _ quality hq f hfind
    exact ⟨pre, f, post, hsplit, hprog, hmatch, hfirst, hsel,
      resolve_eq_resolveWith client lower videoURL quality video f hv hne hsel⟩
  · intro hex
    have hne := progressiveOptions_ne_nil video.Formats hex
    obtain ⟨pre, f, post, hsel, hsplit, hprog, hmax, hfirst⟩ :=
      fallback_first_max video.Formats hex
    have h2 : selectFormat lower (progressiveOptions video.Formats) "" = some f := by
      rw [selectFormat_empty, hsel]
    exact ⟨pre, f, post, hsplit, hprog, hmax, hfirst, h2,
      resolve_eq_resolveWith client lower videoURL "" video f hv hne h2⟩

/-- C10 at the sample video: the hint `360P` selects the 360p stream although its bitrate
(500) is the lowest, and the empty hint selects the first stream of bitrate 900. -/
theorem resolve_selection_rule_witness :
    (∃ pre f post, sampleVideo.Formats = pre ++ f :: post ∧ isProgressive f = true ∧
        stringsContains (stringsToLower Char.toLower f.QualityLabel)
          (stringsToLower Char.toLower "360P") = true ∧
        (∀ g ∈ pre, ¬ (isProgressive g = true ∧
          stringsContains (stringsToLower Char.toLower g.QualityLabel)
            (stringsToLower Char.toLower "360P") = true)) ∧
        selectFormat Char.toLower (progressiveOptions sampleVideo.Formats) "360P" = some f ∧
        ResolveYoutubeURL sampleClient Char.toLower "https://youtu.be/x" "360P"
          = resolveWith sampleClient Char.toLower sampleVideo f) ∧
      (∃ pre f post, sampleVideo.Formats = pre ++ f :: post ∧ isProgressive f = true ∧
        (∀ g ∈ sampleVideo.Formats, isProgressive g = true → g.Bitrate ≤ f.Bitrate) ∧
        (∀ g ∈ pre, isProgressive g = true → g.Bitrate < f.Bitrate) ∧
        selectFormat Char.toLower (progressiveOptions sampleVideo.Formats) "" = some f ∧
        ResolveYoutubeURL sampleClient Char.toLower "https://youtu.be/x" ""
          = resolveWith sampleClient Char.toLower sampleVideo f) :=
  ⟨(resolve_selection_rule sampleClient Char.toLower "https://youtu.be/x" "360P" sampleVideo
      rfl).1 (by decide) (by decide),
   (resolve_selection_rule sampleClient Char.toLower "https://youtu.be/x" "360P" sampleVideo
      rfl).2 (by decide)⟩

/-- C2: `ResolveYoutubeURL` returns a non-nil error exactly when `GetVideo` fails, or the
video has no progressive format, or `GetStreamURL` fails on the selected format; with an
error both strings are empty; without one the URL is the stream URL of the selected format
and the filename is not empty. -/
theorem resolve_result_or_error (client : Client) (lower : Char → Char)
    (videoURL quality : String) :
    ((ResolveYoutubeURL client lower videoURL quality).2.2 ≠ none ↔
      ((∃ e, client.GetVideo videoURL = .error e) ∨
        ∃ video, client.GetVideo videoURL = .ok video ∧
          ((∀ g ∈ video.Formats, isProgressive g = false) ∨
            ∃ f e, selectFormat lower (progressiveOptions video.Formats) quality = some f ∧
              client.GetStreamURL video f = .error e))) ∧
    ((ResolveYoutubeURL client lower videoURL quality).2.2 ≠ none →
      (ResolveYoutubeURL client lower videoURL quality).1 = "" ∧
      (ResolveYoutubeURL client lower videoURL quality).2.1 = "") ∧
    ((ResolveYoutubeURL client lower videoURL quality).2.2 = none →
      ∃ video f, client.GetVideo videoURL = .ok video ∧
        (∃ g ∈ video.Formats, isProgressive g = true) ∧
        selectFormat lower (progressiveOptions video.Formats) quality = some f ∧
        client.GetStreamURL video f
          = .ok (ResolveYoutubeURL client lower videoURL quality).1 ∧
        (ResolveYoutubeURL client lower videoURL quality).2.1 ≠ "") := by
  cases hv : client.GetVideo videoURL with
  | error e =>
    have hres : ResolveYoutubeURL client lower videoURL quality
        = ("", "", some ("failed to get video info: " ++ e)) := by
      simp [ResolveYoutubeURL, hv]
    rw [hres]
    simp
  | ok video =>
    by_cases hopt : progressiveOptions video.Formats = []
    · have hres : ResolveYoutubeURL client lower videoURL quality
          = ("", "", some "no usable video formats found (progressive with audio)") := by
        simp [ResolveYoutubeURL, hv, hopt]
      have hall : ∀ g ∈ video.Formats, isProgressive g = false := by
        intro g hg
        by_contra hp
        simp only [Bool.not_eq_false] at hp
        exact progressiveOptions_ne_nil video.Formats ⟨g, hg, hp⟩ hopt
      rw [hres]
      simp only [ne_eq, reduceCtorEq, not_false_eq_true, true_iff, forall_true_left,
        and_self, false_imp_iff, and_true]
      exact Or.inr ⟨video, rfl, Or.inl hall⟩
    · obtain ⟨f, hsel⟩ := selectFormat_some lower _ quality hopt
      have hres := resolve_eq_resolveWith client lower videoURL quality video f hv hopt hsel
      have hexg : ∃ g ∈ video.Formats, isProgressive g = true := by
        by_contra hcon
        apply hopt
        unfold progressiveOptions
        rw [List.filter_eq_nil_iff]
        intro g hg hp
        exact hcon ⟨g, hg, hp⟩
      have hnall : ¬ ∀ g ∈ video.Formats, isProgressive g = false := by
        obtain ⟨g, hg, hp⟩ := hexg
        intro hall
        rw [hall g hg] at hp
        exact Bool.false_ne_true hp
      rw [hres]
      cases hs : client.GetStreamURL video f with
      | error e =>
        have hrw : resolveWith client lower video f
            = ("", "", some ("failed to get stream URL: " ++ e)) := by
          simp [resolveWith, hs]
        rw [hrw]
        simp only [ne_eq, reduceCtorEq, not_false_eq_true, true_iff, forall_true_left,
          and_self, false_imp_iff, and_true]
        exact Or.inr ⟨video, rfl, Or.inr ⟨f, e, hsel, hs⟩⟩
      | ok url =>
        have hrw : resolveWith client lower video f
            = (url, (if !stringsHasSuffix (stringsToLower lower (sanitizeFilename video.Title))
                ".mp4" then sanitizeFilename video.Title ++ ".mp4"
                else sanitizeFilename video.Title), none) := by
          simp [resolveWith, hs]
        rw [hrw]
        refine ⟨?_, ?_, ?_⟩
        · constructor
          · intro h
            exact absurd rfl h
          · rintro (⟨e, he⟩ | ⟨v, hveq, hcase⟩)
            · cases he
            · cases hveq
              rcases hcase with hall | ⟨f2, e, hsel2, herr⟩
              · exact absurd hall hnall
              · rw [hsel] at hsel2
                cases hsel2
                rw [hs] at herr
                cases herr
        · intro h
          exact absurd rfl h
        · intro _
          refine ⟨video, f, rfl, hexg, hsel, hs, ?_⟩
          dsimp only
          exact mp4_title_ne_empty lower (sanitizeFilename video.Title)

/-! ## Claims on `GetVideoQualities` -/

/-- The condition under which the loop of `GetVideoQualities` looks at a format. -/
theorem collectStep_skip (acc : List String × List String) (f : Format)
    (h : ¬ (isProgressive f = true ∧ f.QualityLabel ≠ "")) : collectStep acc f = acc := by
  unfold collectStep
  have : (decide (f.AudioChannels > 0) && decide (f.Width > 0) &&
      decide (f.QualityLabel ≠ "")) = false := by
    by_contra hc
    simp only [Bool.not_eq_false, Bool.and_eq_true, decide_eq_true_eq] at hc
    exact h ⟨by simp [isProgressive, hc.1.1, hc.1.2], hc.2⟩
  simp only [this, Bool.false_eq_true, if_false]

theorem collectStep_seen (acc : List String × List String) (f : Format)
    (h : f.QualityLabel ∈ acc.2) : collectStep acc f = acc := by
  unfold collectStep
  have : acc.2.contains f.QualityLabel = true := List.elem_iff.2 h
  simp only [this, Bool.not_true, Bool.false_eq_true, if_false, ite_self]

theorem collectStep_new (acc : List String × List String) (f : Format)
    (hp : isProgressive f = true) (hl : f.QualityLabel ≠ "") (h : f.QualityLabel ∉ acc.2) :
    collectStep acc f = (acc.1 ++ [f.QualityLabel], f.QualityLabel :: acc.2) := by
  unfold collectStep
  have hc : acc.2.contains f.QualityLabel = false := by
    by_contra hc
    simp only [Bool.not_eq_false] at hc
    exact h (List.elem_iff.1 hc)
  have hcond : (decide (f.AudioChannels > 0) && decide (f.Width > 0) &&
      decide (f.QualityLabel ≠ "")) = true := by
    have hp2 : decide (f.AudioChannels > 0) = true ∧ decide (f.Width > 0) = true := by
      simpa [isProgressive] using hp
    simp only [hp2.1, hp2.2, Bool.and_self, Bool.true_and, decide_eq_true_eq]
    exact hl
  simp only [hcond, hc, Bool.not_false, if_true]

/-- Invariant of the loop of `GetVideoQualities` over a prefix `formats` of the list. -/
theorem collect_invariant (formats : List Format) :
    (∀ q, q ∈ (formats.foldl collectStep ([], [])).2 ↔
      q ∈ (formats.foldl collectStep ([], [])).1) ∧
    (formats.foldl collectStep ([], [])).1.Nodup ∧
    (∀ q, q ∈ (formats.foldl collectStep ([], [])).1 ↔
      ∃ f ∈ formats, isProgressive f = true ∧ f.QualityLabel ≠ "" ∧ f.QualityLabel = q) ∧
    (∀ a ∈ (formats.foldl collectStep ([], [])).1,
      ∀ b ∈ (formats.foldl collectStep ([], [])).1,
        (List.indexOf a (formats.foldl collectStep ([], [])).1
            < List.indexOf b (formats.foldl collectStep ([], [])).1 ↔
          firstLabelled formats a < firstLabelled formats b)) := by
  induction formats using List.reverseRecOn with
  | nil => simp
  | append_singleton l f ih =>
    obtain ⟨hseen, hnd, hmem, hord⟩ := ih
    rw [List.foldl_append]
    simp only [List.foldl_cons, List.foldl_nil]
    generalize hacc : List.foldl collectStep ([], []) l = acc at hseen hnd hmem hord ⊢
    -- an element already collected is first found inside `l`
    have hold : ∀ a ∈ acc.1, firstLabelled (l ++ [f]) a = firstLabelled l a ∧
        firstLabelled l a < l.length := by
      intro a ha
      obtain ⟨g, hg, hgp, _, hga⟩ := (hmem a).1 ha
      have hlt : firstLabelled l a < l.length := by
        unfold firstLabelled
        exact List.findIdx_lt_length_of_exists ⟨g, hg, by simp [hgp, hga]⟩
      refine ⟨?_, hlt⟩
      unfold firstLabelled at hlt ⊢
      rw [List.findIdx_append, if_pos hlt]
    have hkeep : (∀ a ∈ acc.1, ∀ b ∈ acc.1,
        (List.indexOf a acc.1 < List.indexOf b acc.1 ↔
          firstLabelled (l ++ [f]) a < firstLabelled (l ++ [f]) b)) := by
      intro a ha b hb
      rw [(hold a ha).1, (hold b hb).1]
      exact hord a ha b hb
    by_cases hq : isProgressive f = true ∧ f.QualityLabel ≠ ""
    · by_cases hs : f.QualityLabel ∈ acc.2
      · rw [collectStep_seen acc f hs]
        refine ⟨hseen, hnd, ?_, hkeep⟩
        intro q
        rw [hmem q]
        constructor
        · rintro ⟨g, hg, h⟩
          exact ⟨g, List.mem_append_left _ hg, h⟩
        · rintro ⟨g, hg, hgp, hgl, hgq⟩
          rcases List.mem_append.1 hg with hg | hg
          · exact ⟨g, hg, hgp, hgl, hgq⟩
          · have hgf : g = f := by simpa using hg
            subst hgf
            exact (hmem q).1 (hgq ▸ (hseen _).1 hs)
      · rw [collectStep_new acc f hq.1 hq.2 hs]
        have hnot : f.QualityLabel ∉ acc.1 := fun h => hs ((hseen _).2 h)
        have hnone : ¬ firstLabelled l f.QualityLabel < l.length := by
          intro hlt
          unfold firstLabelled at hlt
          obtain ⟨g, hg, hpg⟩ := List.findIdx_lt_length.1 hlt
          simp only [Bool.and_eq_true, beq_iff_eq] at hpg
          exact hnot ((hmem _).2 ⟨g, hg, hpg.1, hpg.2 ▸ hq.2, hpg.2⟩)
        have hnew : firstLabelled (l ++ [f]) f.QualityLabel = l.length := by
          unfold firstLabelled at hnone ⊢
          rw [List.findIdx_append, if_neg hnone, List.findIdx_cons]
          simp [hq.1]
        have hidx : List.indexOf f.QualityLabel (acc.1 ++ [f.QualityLabel]) = acc.1.length := by
          rw [List.indexOf_append_of_not_mem hnot, List.indexOf_cons_self]
          rfl
        have hidxlt : ∀ a ∈ acc.1, List.indexOf a (acc.1 ++ [f.QualityLabel])
            = List.indexOf a acc.1 ∧ List.indexOf a acc.1 < acc.1.length := by
          intro a ha
          exact ⟨List.indexOf_append_of_mem ha, List.indexOf_lt_length.2 ha⟩
        refine ⟨?_, ?_, ?_, ?_⟩
        · intro q
          rw [List.mem_cons, List.mem_append, List.mem_singleton, hseen q]
          exact or_comm
        · rw [List.nodup_append]
          refine ⟨hnd, List.nodup_singleton _, ?_⟩
          intro x hx hx2
          rw [List.mem_singleton] at hx2
          exact hnot (hx2 ▸ hx)
        · intro q
          simp only [List.mem_append, List.mem_singleton, hmem q]
          constructor
          · rintro (⟨g, hg, h⟩ | rfl)
            · exact ⟨g, Or.inl hg, h⟩
            · exact ⟨f, Or.inr rfl, hq.1, hq.2, rfl⟩
          · rintro ⟨g, hg | rfl, hgp, hgl, hgq⟩
            · exact Or.inl ⟨g, hg, hgp, hgl, hgq⟩
            · exact Or.inr hgq.symm
        · intro a ha b hb
          simp only [List.mem_append, List.mem_singleton] at ha hb
          rcases ha with ha | rfl <;> rcases hb with hb | rfl
          · rw [(hidxlt a ha).1, (hidxlt b hb).1, (hold a ha).1, (hold b hb).1]
            exact hord a ha b hb
          · rw [(hidxlt a ha).1, hidx, hnew, (hold a ha).1]
            exact ⟨fun _ => (hold a ha).2, fun _ => (hidxlt a ha).2⟩
          · rw [(hidxlt b hb).1, hidx, hnew, (hold b hb).1]
            have h1 := (hidxlt b hb).2
            have h2 := (hold b hb).2
            constructor <;> intro h <;> omega
          · simp
    · rw [collectStep_skip acc f hq]
      refine ⟨hseen, hnd, ?_, hkeep⟩
      intro q
      rw [hmem q]
      constructor
      · rintro ⟨g, hg, h⟩
        exact ⟨g, List.mem_append_left _ hg, h⟩
      · rintro ⟨g, hg, hgp, hgl, hgq⟩
        rcases List.mem_append.1 hg with hg | hg
        · exact ⟨g, hg, hgp, hgl, hgq⟩
        · have hgf : g = f := by simpa using hg
          subst hgf
          exact absurd ⟨hgp, hgl⟩ hq

/-- C7: when the video is fetched, the quality list returned by `GetVideoQualities` has no
duplicates, holds exactly the non-empty labels of the progressive formats, and lists them in
the order in which each label first occurs on a progressive format of the video. -/
theorem qualities_distinct_in_first_occurrence_order (client : Client) (videoURL : String)
    (video : Video) (hv : client.GetVideo videoURL = .ok video) :
    (GetVideoQualities client videoURL).2.2 = none ∧
    (GetVideoQualities client videoURL).1.Nodup ∧
    (∀ q, q ∈ (GetVideoQualities client videoURL).1 ↔
      ∃ f ∈ video.Formats, isProgressive f = true ∧ f.QualityLabel ≠ "" ∧ f.QualityLabel = q) ∧
    (∀ a ∈ (GetVideoQualities client videoURL).1, ∀ b ∈ (GetVideoQualities client videoURL).1,
      (List.indexOf a (GetVideoQualities client videoURL).1
          < List.indexOf b (GetVideoQualities client videoURL).1 ↔
        firstLabelled video.Formats a < firstLabelled video.Formats b)) := by
  have hres : GetVideoQualities client videoURL
      = (collectQualities video.Formats, sanitizeFilename video.Title, none) := by
    simp [GetVideoQualities, hv]
  rw [hres]
  obtain ⟨_, hnd, hmem, hord⟩ := collect_invariant video.Formats
  exact ⟨rfl, hnd, hmem, hord⟩

/-- C7 at the sample video: the labels are `360p`, `720p`, `720p60`. -/
theorem qualities_distinct_in_first_occurrence_order_witness :
    (GetVideoQualities sampleClient "https://youtu.be/x").1 = ["360p", "720p", "720p60"] ∧
    (GetVideoQualities sampleClient "https://youtu.be/x").2.2 = none ∧
    (GetVideoQualities sampleClient "https://youtu.be/x").1.Nodup ∧
    (∀ q, q ∈ (GetVideoQualities sampleClient "https://youtu.be/x").1 ↔
      ∃ f ∈ sampleVideo.Formats,
        isProgressive f = true ∧ f.QualityLabel ≠ "" ∧ f.QualityLabel = q) ∧
    (∀ a ∈ (GetVideoQualities sampleClient "https://youtu.be/x").1,
      ∀ b ∈ (GetVideoQualities sampleClient "https://youtu.be/x").1,
      (List.indexOf a (GetVideoQualities sampleClient "https://youtu.be/x").1
          < List.indexOf b (GetVideoQualities sampleClient "https://youtu.be/x").1 ↔
        firstLabelled sampleVideo.Formats a < firstLabelled sampleVideo.Formats b)) :=
  ⟨by decide,
    qualities_distinct_in_first_occurrence_order sampleClient "https://youtu.be/x" sampleVideo
      rfl⟩

/-! ## Claims on the `/download` handler and the dispatchers -/

/-- The handler on a request that passes every guard. -/
theorem handler_accepts {σ : Type} (decode : String → Except String DownloadRequest)
    (isAbs : String → Bool) (dispatcher : DownloadDispatcher σ) (r : Request) (st : σ)
    (req : DownloadRequest) (hm : r.Method = "POST") (hd : decode r.Body = .ok req)
    (hacc : requestAccepted isAbs req) :
    makeDownloadHandler decode isAbs dispatcher r st
      = (⟨200, .json [("status", "queued"), ("message", "Download request received")]⟩,
          dispatcher req.URL req.Path req.Filename req.Quality st) := by
  obtain ⟨h1, h2, h3, h4, h5, h6⟩ := hacc
  simp [makeDownloadHandler, hm, hd, h1, h2, h3, h4, h5, h6]

/-- The handler on a request that fails some guard. -/
theorem handler_rejects {σ : Type} (decode : String → Except String DownloadRequest)
    (isAbs : String → Bool) (dispatcher : DownloadDispatcher σ) (r : Request) (st : σ)
    (hrej : ¬ (r.Method = "POST" ∧ ∃ req, decode r.Body = .ok req ∧ requestAccepted isAbs req)) :
    (makeDownloadHandler decode isAbs dispatcher r st).2 = st ∧
      (makeDownloadHandler decode isAbs dispatcher r st).1.Status
        = if r.Method ≠ "POST" then 405 else 400 := by
  unfold makeDownloadHandler
  by_cases hm : r.Method = "POST"
  · simp only [hm, ne_eq, not_true_eq_false, if_false]
    cases hd : decode r.Body with
    | error e => exact ⟨rfl, rfl⟩
    | ok req =>
      dsimp only
      by_cases h1 : req.URL = ""
      · rw [if_pos h1]; exact ⟨rfl, rfl⟩
      · rw [if_neg h1]
        by_cases h2 : (stringsContains req.Path ".." || stringsContains req.Filename "..") = true
        · rw [if_pos h2]; exact ⟨rfl, rfl⟩
        · rw [if_neg h2]
          by_cases h3 : (stringsContains req.Filename "/" ||
              stringsContains req.Filename "\\") = true
          · rw [if_pos h3]; exact ⟨rfl, rfl⟩
          · rw [if_neg h3]
            by_cases h4 : isAbs req.Path = true
            · rw [if_pos h4]; exact ⟨rfl, rfl⟩
            · exfalso
              apply hrej
              have h2c : stringsContains req.Path ".." = false ∧
                  stringsContains req.Filename ".." = false := by simpa using h2
              have h3c : stringsContains req.Filename "/" = false ∧
                  stringsContains req.Filename "\\" = false := by simpa using h3
              exact ⟨hm, req, hd, h1, h2c.1, h2c.2, h3c.1, h3c.2, by simpa using h4⟩
  · rw [if_pos hm, if_pos hm]
    exact ⟨rfl, rfl⟩

/-- C8: the `/download` handler calls its dispatcher exactly when the method is POST, the
body decodes, the URL is not empty, neither Path nor Filename contains `..`, Filename
contains neither `/` nor `\`, and Path is not absolute; it then calls it once with the
request's url, path, filename and quality and answers `queued`.  Otherwise the dispatcher is
not called and the status is 405 for a non-POST method and 400 else. -/
theorem download_handler_dispatches_iff_accepted
    (decode : String → Except String DownloadRequest) (isAbs : String → Bool) (r : Request) :
    ((makeDownloadHandler decode isAbs recordCall r []).2 ≠ [] ↔
      (r.Method = "POST" ∧ ∃ req, decode r.Body = .ok req ∧ req.URL ≠ "" ∧
        stringsContains req.Path ".." = false ∧ stringsContains req.Filename ".." = false ∧
        stringsContains req.Filename "/" = false ∧ stringsContains req.Filename "\\" = false ∧
        isAbs req.Path = false)) ∧
    (∀ req, r.Method = "POST" → decode r.Body = .ok req → requestAccepted isAbs req →
      (makeDownloadHandler decode isAbs recordCall r []).2
        = [⟨req.URL, req.Path, req.Filename, req.Quality⟩] ∧
      ∀ (σ : Type) (dispatcher : DownloadDispatcher σ) (st : σ),
        makeDownloadHandler decode isAbs dispatcher r st
          = (⟨200, .json [("status", "queued"), ("message", "Download request received")]⟩,
              dispatcher req.URL req.Path req.Filename req.Quality st)) ∧
    (¬ (r.Method = "POST" ∧ ∃ req, decode r.Body = .ok req ∧ requestAccepted isAbs req) →
      ∀ (σ : Type) (dispatcher : DownloadDispatcher σ) (st : σ),
        (makeDownloadHandler decode isAbs dispatcher r st).2 = st ∧
        (makeDownloadHandler decode isAbs dispatcher r st).1.Status
          = if r.Method ≠ "POST" then 405 else 400) := by
  refine ⟨?_, ?_, ?_⟩
  · constructor
    · intro hcalls
      by_contra hrej
      exact hcalls (handler_rejects decode isAbs recordCall r [] hrej).1
    · rintro ⟨hm, req, hd, hacc⟩
      rw [handler_accepts decode isAbs recordCall r [] req hm hd hacc]
      simp [recordCall]
  · intro req hm hd hacc
    refine ⟨?_, fun σ dispatcher st => handler_accepts decode isAbs dispatcher r st req hm hd hacc⟩
    rw [handler_accepts decode isAbs recordCall r [] req hm hd hacc]
    rfl
  · intro hrej σ dispatcher st
    exact handler_rejects decode isAbs dispatcher r st hrej

/-- C9, refuted: two submissions that differ only in the quality hint make the TUI
dispatcher send the same `StartDownloadMsg`, so no reading of the message gives back the
hint. -/
theorem tui_dispatcher_drops_quality :
    tuiDispatcher "https://youtu.be/x" "videos" "clip.mp4" "720p" (some [])
        = tuiDispatcher "https://youtu.be/x" "videos" "clip.mp4" "1080p" (some []) ∧
      ¬ ∃ qualityOf : StartDownloadMsg → String, ∀ q ∈ ["720p", "1080p"],
        (tuiDispatcher "https://youtu.be/x" "videos" "clip.mp4" q (some [])).map
          (List.map qualityOf) = some [q] := by
  refine ⟨rfl, ?_⟩
  rintro ⟨qualityOf, h⟩
  have h1 := h "720p" (by simp)
  have h2 := h "1080p" (by simp)
  simp only [tuiDispatcher, List.nil_append, Option.map_some', List.map_cons, List.map_nil,
    Option.some.injEq, List.cons.injEq, and_true] at h1 h2
  rw [h1] at h2
  exact absurd h2 (by decide)

/-- C9, amended: for an accepted `/download` request the TUI dispatcher sends exactly one
`StartDownloadMsg`, carrying the request's URL, path and filename unchanged; the message is
the same whatever the quality hint. -/
theorem tui_dispatcher_forwards_url_path_filename
    (decode : String → Except String DownloadRequest) (isAbs : String → Bool) (r : Request)
    (req : DownloadRequest) (sent : List StartDownloadMsg)
    (hm : r.Method = "POST") (hd : decode r.Body = .ok req)
    (hacc : requestAccepted isAbs req) :
    (makeDownloadHandler decode isAbs tuiDispatcher r (some sent)).2
        = some (sent ++ [{ URL := req.URL, Path := req.Path, Filename := req.Filename }]) ∧
      ∀ quality, tuiDispatcher req.URL req.Path req.Filename quality (some sent)
        = some (sent ++ [{ URL := req.URL, Path := req.Path, Filename := req.Filename }]) := by
  rw [handler_accepts decode isAbs tuiDispatcher r (some sent) req hm hd hacc]
  exact ⟨rfl, fun _ => rfl⟩

/-- C9, amended, on a sample request. -/
theorem tui_dispatcher_forwards_url_path_filename_witness :
    (makeDownloadHandler sampleDecode (fun p => stringsHasPrefix p "/") tuiDispatcher
        sampleRequest (some [])).2
        = some [{ URL := "https://youtu.be/x", Path := "videos", Filename := "clip.mp4" }] ∧
      ∀ quality, tuiDispatcher "https://youtu.be/x" "videos" "clip.mp4" quality (some [])
        = some [{ URL := "https://youtu.be/x", Path := "videos", Filename := "clip.mp4" }] :=
  tui_dispatcher_forwards_url_path_filename sampleDecode (fun p => stringsHasPrefix p "/")
    sampleRequest ⟨"https://youtu.be/x", "clip.mp4", "videos", "720p"⟩ [] rfl rfl
    (by unfold requestAccepted; decide)

/-- C3: one call of the headless dispatcher gives `pool.Add` exactly one descriptor; its URL,
Filename and Quality are the arguments, Verbose is the headless verbosity flag, its
ProgressState is `NewProgressState` of the descriptor's own ID and 0, its budget policy
copies the three connection settings, and OutputPath is `path` when that is not empty, else
the default download directory when that is not empty, else the working directory. -/
theorem headless_dispatcher_adds_one_descriptor {PS : Type} (settings : Settings)
    (headlessVerbose : Bool) (newProgressState : String → Int → PS) (uuids : Nat → String)
    (url path filename quality : String) (w : HeadlessWorld PS) :
    ∃ cfg : DownloadConfig PS,
      (headlessDispatcher settings headlessVerbose newProgressState uuids
          url path filename quality w).added = w.added ++ [cfg] ∧
      cfg.URL = url ∧ cfg.Filename = filename ∧ cfg.Quality = quality ∧
      cfg.Verbose = headlessVerbose ∧ cfg.State = newProgressState cfg.ID 0 ∧
      cfg.Runtime.MaxConnectionsPerHost = settings.Connections.MaxConnectionsPerHost ∧
      cfg.Runtime.MaxGlobalConnections = settings.Connections.MaxGlobalConnections ∧
      cfg.Runtime.UserAgent = settings.Connections.UserAgent ∧
      cfg.OutputPath =
        (if path ≠ "" then path
         else if settings.General.DefaultDownloadDir ≠ "" then
           settings.General.DefaultDownloadDir
         else w.cwd) := by
  refine ⟨_, rfl, rfl, rfl, rfl, rfl, rfl, rfl, rfl, rfl, ?_⟩
  by_cases hp : path = ""
  · by_cases hdft : settings.General.DefaultDownloadDir = ""
    · simp [hp, hdft]
    · simp [hp, hdft]
  · simp [hp]

/-! ## `filepath.Clean` and `filepath.Join` -/

theorem dropWhile_length_le {α : Type} (p : α → Bool) (l : List α) :
    (l.dropWhile p).length ≤ l.length := by
  induction l with
  | nil => simp
  | cons a t ih =>
    simp only [List.dropWhile_cons]
    split
    · exact Nat.le_succ_of_le ih
    · exact le_refl _

/-- The result of the loop does not depend on the fuel once there is enough of it. -/
theorem cleanLoop_fuel (rooted : Bool) :
    ∀ (f1 f2 : Nat) (path rout : List Char) (dd : Nat), path.length ≤ f1 → path.length ≤ f2 →
      cleanLoop rooted f1 path rout dd = cleanLoop rooted f2 path rout dd := by
  intro f1
  induction f1 with
  | zero =>
    intro f2 path rout dd h1 _
    have hp : path = [] := List.length_eq_zero.1 (Nat.le_zero.1 h1)
    subst hp
    cases f2 <;> simp [cleanLoop]
  | succ a ih =>
    intro f2 path rout dd h1 h2
    cases path with
    | nil => cases f2 <;> simp [cleanLoop]
    | cons c rest =>
      obtain ⟨b, rfl⟩ : ∃ b, f2 = b + 1 := ⟨f2 - 1, by simp at h2; omega⟩
      have hr1 : rest.length ≤ a := by simpa using h1
      have hr2 : rest.length ≤ b := by simpa using h2
      have ht1 : rest.tail.length ≤ a := by simp; omega
      have ht2 : rest.tail.length ≤ b := by simp; omega
      simp only [cleanLoop]
      split
      · exact ih b _ _ _ hr1 hr2
      · split
        · exact ih b _ _ _ hr1 hr2
        · split
          · split
            · split
              · exact ih b _ _ _ ht1 ht2
              · exact ih b _ _ _ ht1 ht2
            · split
              · exact ih b _ _ _ ht1 ht2
              · exact ih b _ _ _ ht1 ht2
          · have hd := dropWhile_length_le (fun b => b != '/') (c :: rest)
            have hne : (c != '/') = true := by
              rename_i h _ _
              simpa using h
            have hd2 : ((c :: rest).dropWhile (fun b => b != '/')).length ≤ rest.length := by
              rw [List.dropWhile_cons, if_pos hne]
              exact dropWhile_length_le _ _
            exact ih b _ _ _ (le_trans hd2 hr1) (le_trans hd2 hr2)

/-- One iteration of the loop on a non-empty input. -/
theorem cleanLoop_succ_cons (rooted : Bool) (fuel : Nat) (c : Char) (rest rout : List Char)
    (dotdot : Nat) :
    cleanLoop rooted (fuel + 1) (c :: rest) rout dotdot =
      if c == '/' then
        cleanLoop rooted fuel rest rout dotdot
      else if c == '.' && (rest.isEmpty || rest.head? == some '/') then
        cleanLoop rooted fuel rest rout dotdot
      else if c == '.' && rest.head? == some '.' &&
          (rest.tail.isEmpty || rest.tail.head? == some '/') then
        if rout.length > dotdot then
          match rout with
          | [] => cleanLoop rooted fuel rest.tail [] dotdot
          | d :: r => cleanLoop rooted fuel rest.tail (cleanBacktrack dotdot d r) dotdot
        else if !rooted then
          cleanLoop rooted fuel rest.tail
            ('.' :: '.' :: (if rout.length > 0 then '/' :: rout else rout))
            ((if rout.length > 0 then '/' :: rout else rout).length + 2)
        else
          cleanLoop rooted fuel rest.tail rout dotdot
      else
        cleanLoop rooted fuel ((c :: rest).dropWhile (fun b => b != '/'))
          (((c :: rest).takeWhile (fun b => b != '/')).reverse ++
            (if (rooted && rout.length != 1) || (!rooted && rout.length != 0) then '/' :: rout
             else rout)) dotdot := rfl

theorem cleanRun_nil (rooted : Bool) (rout : List Char) (dd : Nat) :
    cleanRun rooted [] rout dd = rout := by
  simp [cleanRun, cleanLoop]

theorem cleanRun_sep (rooted : Bool) (rest rout : List Char) (dd : Nat) :
    cleanRun rooted ('/' :: rest) rout dd = cleanRun rooted rest rout dd := by
  unfold cleanRun
  rw [List.length_cons, cleanLoop_succ_cons]
  simp

theorem atBoundary_cond (rest : List Char) (hb : atBoundary rest) :
    (rest.isEmpty || rest.head? == some '/') = true := by
  rcases hb with rfl | h
  · simp
  · simp [h]

theorem cleanRun_dot (rooted : Bool) (rest rout : List Char) (dd : Nat)
    (hb : atBoundary rest) :
    cleanRun rooted ('.' :: rest) rout dd = cleanRun rooted rest rout dd := by
  unfold cleanRun
  rw [List.length_cons, cleanLoop_succ_cons]
  simp [atBoundary_cond rest hb]

/-- The `..` case of the loop. -/
theorem cleanRun_dotdot (rooted : Bool) (rest rout : List Char) (dd : Nat)
    (hb : atBoundary rest) :
    cleanRun rooted ('.' :: '.' :: rest) rout dd =
      if rout.length > dd then
        match rout with
        | [] => cleanRun rooted rest [] dd
        | d :: r => cleanRun rooted rest (cleanBacktrack dd d r) dd
      else if !rooted then
        cleanRun rooted rest ('.' :: '.' :: (if rout.length > 0 then '/' :: rout else rout))
          ((if rout.length > 0 then '/' :: rout else rout).length + 2)
      else cleanRun rooted rest rout dd := by
  have hfuel : ∀ r2 d2, cleanLoop rooted (rest.length + 1) rest r2 d2
      = cleanRun rooted rest r2 d2 := fun r2 d2 =>
    cleanLoop_fuel rooted _ _ rest r2 d2 (by omega) (le_refl _)
  have hc1 : ('.' == '/') = false := by decide
  have hc2 : (('.' : Char) == '.') = true := by decide
  unfold cleanRun
  rw [List.length_cons, List.length_cons, cleanLoop_succ_cons]
  simp only [hc1, hc2, List.head?_cons, List.tail_cons, atBoundary_cond rest hb, hfuel,
    Bool.false_eq_true, if_false, Bool.true_and, Bool.and_true, List.isEmpty_cons,
    Bool.false_or, beq_self_eq_true, if_true]
  have hc3 : (some '.' == some '/') = false := by decide
  simp only [hc3, Bool.false_eq_true, if_false]
  split
  · split <;> rfl
  · rfl

theorem takeWhile_elem_append (e tail : List Char) (he : '/' ∉ e) (hb : atBoundary tail) :
    (e ++ tail).takeWhile (fun b => b != '/') = e := by
  induction e with
  | nil =>
    rcases hb with rfl | h
    · rfl
    · cases tail with
      | nil => rfl
      | cons t ts =>
        simp only [List.head?_cons, Option.some.injEq] at h
        subst h
        rfl
  | cons a e ih =>
    have ha : a ≠ '/' := fun h => he (h ▸ List.mem_cons_self _ _)
    have he2 : '/' ∉ e := fun h => he (List.mem_cons_of_mem _ h)
    simp [List.takeWhile_cons, ha, ih he2]

theorem dropWhile_elem_append (e tail : List Char) (he : '/' ∉ e) (hb : atBoundary tail) :
    (e ++ tail).dropWhile (fun b => b != '/') = tail := by
  induction e with
  | nil =>
    rcases hb with rfl | h
    · rfl
    · cases tail with
      | nil => rfl
      | cons t ts =>
        simp only [List.head?_cons, Option.some.injEq] at h
        subst h
        rfl
  | cons a e ih =>
    have ha : a ≠ '/' := fun h => he (h ▸ List.mem_cons_self _ _)
    have he2 : '/' ∉ e := fun h => he (List.mem_cons_of_mem _ h)
    simp [List.dropWhile_cons, ha, ih he2]

/-- The default case of the loop: a plain element is copied to the buffer. -/
theorem cleanRun_elem (rooted : Bool) (e tail rout : List Char) (dd : Nat)
    (he : plainElem e) (hb : atBoundary tail) :
    cleanRun rooted (e ++ tail) rout dd = cleanRun rooted tail (pushElem rooted rout e) dd := by
  obtain ⟨hne, hsep, hdot, hdotdot⟩ := he
  cases e with
  | nil => exact absurd rfl hne
  | cons c e' =>
    have hc : c ≠ '/' := fun h => hsep (h ▸ List.mem_cons_self _ _)
    have hsep' : '/' ∉ e' := fun h => hsep (List.mem_cons_of_mem _ h)
    have hfuel : ∀ r2 d2, cleanLoop rooted (e' ++ tail).length tail r2 d2
        = cleanRun rooted tail r2 d2 := fun r2 d2 =>
      cleanLoop_fuel rooted _ _ tail r2 d2 (by simp) (le_refl _)
    -- the element is not `.`
    have h2 : (c == '.' && ((e' ++ tail).isEmpty || (e' ++ tail).head? == some '/')) = false := by
      by_cases hcd : c = '.'
      · subst hcd
        cases e' with
        | nil => exact absurd rfl hdot
        | cons a e'' =>
          have ha : a ≠ '/' := fun h => hsep' (h ▸ List.mem_cons_self _ _)
          simp [ha]
      · simp [hcd]
    -- the element is not `..`
    have h3 : (c == '.' && (e' ++ tail).head? == some '.' &&
        ((e' ++ tail).tail.isEmpty || (e' ++ tail).tail.head? == some '/')) = false := by
      by_cases hcd : c = '.'
      · subst hcd
        cases e' with
        | nil => exact absurd rfl hdot
        | cons a e'' =>
          by_cases had : a = '.'
          · subst had
            cases e'' with
            | nil => exact absurd rfl hdotdot
            | cons b e3 =>
              have hb' : b ≠ '/' := fun h =>
                hsep' (h ▸ List.mem_cons_of_mem _ (List.mem_cons_self _ _))
              simp [hb']
          · simp [had]
      · simp [hcd]
    have htake := takeWhile_elem_append (c :: e') tail hsep hb
    have hdrop := dropWhile_elem_append (c :: e') tail hsep hb
    rw [List.cons_append] at htake hdrop
    unfold cleanRun
    rw [List.cons_append, List.length_cons, cleanLoop_succ_cons, htake, hdrop, h2, h3, hfuel]
    have hc' : (c == '/') = false := by simpa using hc
    simp only [hc', Bool.false_eq_true, if_false]
    rfl

/-! ### The output buffer -/

theorem pushElem_length (rooted : Bool) (rout e : List Char) :
    rout.length + e.length ≤ (pushElem rooted rout e).length := by
  unfold pushElem
  split <;> simp <;> omega

theorem encBuf_nil (rooted : Bool) (k : Nat) : encBuf rooted k [] = baseBuf rooted k := rfl

theorem encBuf_snoc (rooted : Bool) (k : Nat) (es : List (List Char)) (e : List Char) :
    encBuf rooted k (es ++ [e]) = pushElem rooted (encBuf rooted k es) e := by
  simp [encBuf, List.foldl_append]

theorem encBuf_length_ge (rooted : Bool) (k : Nat) (es : List (List Char)) :
    (baseBuf rooted k).length ≤ (encBuf rooted k es).length := by
  induction es using List.reverseRecOn with
  | nil => exact le_refl _
  | append_singleton es e ih =>
    rw [encBuf_snoc]
    have := pushElem_length rooted (encBuf rooted k es) e
    omega

theorem baseBuf_length_rooted (k : Nat) : (baseBuf true k).length = 1 := rfl

/-- Without a separator to write, the buffer holds nothing above its base. -/
theorem length_eq_of_needSep_false (rooted : Bool) (k : Nat) (es : List (List Char))
    (h : needSep rooted (encBuf rooted k es) = false) :
    (encBuf rooted k es).length = (baseBuf rooted k).length := by
  have hge := encBuf_length_ge rooted k es
  cases rooted with
  | true =>
    have : (encBuf true k es).length = 1 := by simpa [needSep] using h
    rw [this]
    rfl
  | false =>
    have : encBuf false k es = [] := by simpa [needSep] using h
    rw [this] at hge ⊢
    simp only [List.length_nil, Nat.le_zero] at hge
    exact hge.symm

/-- The inner loop of `..` removes a separator-free word and the separator before it. -/
theorem cleanBacktrack_word_sep (dd : Nat) (w prev : List Char) (d : Char) (hd : d ≠ '/')
    (hw : '/' ∉ w) (hlen : dd ≤ prev.length) :
    cleanBacktrack dd d (w ++ '/' :: prev) = prev := by
  induction w generalizing d with
  | nil =>
    have h1 : decide (('/' :: prev).length > dd) = true := by simp; omega
    have h2 : (d != '/') = true := by simpa using hd
    rw [List.nil_append, cleanBacktrack]
    simp only [h1, h2, Bool.and_self, if_true]
    cases prev with
    | nil => rfl
    | cons p ps => simp [cleanBacktrack]
  | cons c w ih =>
    have hc : c ≠ '/' := fun h => hw (h ▸ List.mem_cons_self _ _)
    have hw' : '/' ∉ w := fun h => hw (List.mem_cons_of_mem _ h)
    have h1 : decide ((c :: (w ++ '/' :: prev)).length > dd) = true := by simp; omega
    have h2 : (d != '/') = true := by simpa using hd
    rw [List.cons_append, cleanBacktrack]
    simp only [h1, h2, Bool.and_self, if_true]
    exact ih c hc hw'

/-- The inner loop of `..` removes a separator-free word that sits right on the base. -/
theorem cleanBacktrack_word_base (dd : Nat) (w prev : List Char) (d : Char) (hd : d ≠ '/')
    (hw : '/' ∉ w) (hlen : prev.length = dd) :
    cleanBacktrack dd d (w ++ prev) = prev := by
  induction w generalizing d with
  | nil =>
    rw [List.nil_append]
    cases prev with
    | nil => rfl
    | cons p ps =>
      have h1 : decide ((p :: ps).length > dd) = false := by
        rw [hlen]
        simp
      rw [cleanBacktrack]
      simp only [h1, Bool.false_and, Bool.false_eq_true, if_false]
  | cons c w ih =>
    have hc : c ≠ '/' := fun h => hw (h ▸ List.mem_cons_self _ _)
    have hw' : '/' ∉ w := fun h => hw (List.mem_cons_of_mem _ h)
    have h1 : decide ((c :: (w ++ prev)).length > dd) = true := by simp; omega
    have h2 : (d != '/') = true := by simpa using hd
    rw [List.cons_append, cleanBacktrack]
    simp only [h1, h2, Bool.and_self, if_true]
    exact ih c hc hw'

/-- A `..` on a buffer whose last element is `e` restores the buffer from before `e`. -/
theorem backtrack_pushElem (rooted : Bool) (k : Nat) (es : List (List Char)) (e : List Char)
    (hne : e ≠ []) (hsep : '/' ∉ e) :
    ∃ d r, pushElem rooted (encBuf rooted k es) e = d :: r ∧
      cleanBacktrack (baseBuf rooted k).length d r = encBuf rooted k es := by
  obtain ⟨d, w, hrev⟩ : ∃ d w, e.reverse = d :: w := by
    cases h : e.reverse with
    | nil => exact absurd (List.reverse_eq_nil_iff.1 h) hne
    | cons d w => exact ⟨d, w, rfl⟩
  have hdmem : d ∈ e := by
    have : d ∈ e.reverse := by rw [hrev]; exact List.mem_cons_self _ _
    simpa using this
  have hwmem : ∀ x ∈ w, x ∈ e := by
    intro x hx
    have : x ∈ e.reverse := by rw [hrev]; exact List.mem_cons_of_mem _ hx
    simpa using this
  have hd : d ≠ '/' := fun h => hsep (h ▸ hdmem)
  have hw : '/' ∉ w := fun h => hsep (hwmem _ h)
  by_cases hs : needSep rooted (encBuf rooted k es) = true
  · refine ⟨d, w ++ '/' :: encBuf rooted k es, by simp [pushElem, hs, hrev], ?_⟩
    exact cleanBacktrack_word_sep _ w _ d hd hw (encBuf_length_ge rooted k es)
  · have hs' : needSep rooted (encBuf rooted k es) = false := by simpa using hs
    refine ⟨d, w ++ encBuf rooted k es, by simp [pushElem, hs', hrev], ?_⟩
    exact cleanBacktrack_word_base _ w _ d hd hw (length_eq_of_needSep_false rooted k es hs')

theorem encBuf_snoc_length_gt (rooted : Bool) (k : Nat) (es : List (List Char)) (e : List Char)
    (hne : e ≠ []) : (baseBuf rooted k).length < (encBuf rooted k (es ++ [e])).length := by
  rw [encBuf_snoc]
  have h1 := pushElem_length rooted (encBuf rooted k es) e
  have h2 := encBuf_length_ge rooted k es
  have h3 : 0 < e.length := List.length_pos.2 hne
  omega

/-- The `..` case on a well-formed buffer leads to a well-formed buffer. -/
theorem cleanRun_dotdot_wf (rooted : Bool) (k : Nat) (es : List (List Char))
    (hwf : wfBuf rooted k es) :
    ∃ k' es', wfBuf rooted k' es' ∧ ∀ rest, atBoundary rest →
      cleanRun rooted ('.' :: '.' :: rest) (encBuf rooted k es) (baseBuf rooted k).length
        = cleanRun rooted rest (encBuf rooted k' es') (baseBuf rooted k').length := by
  rcases List.eq_nil_or_concat es with rfl | ⟨es0, e, rfl⟩
  · cases rooted with
    | true =>
      refine ⟨k, [], hwf, fun rest hb => ?_⟩
      rw [cleanRun_dotdot true rest _ _ hb, encBuf_nil, if_neg (lt_irrefl _)]
      rfl
    | false =>
      have hwf1 : wfBuf false (k + 1) [] := And.intro (fun h => by cases h) (by simp)
      refine ⟨k + 1, [], hwf1, fun rest hb => ?_⟩
      rw [cleanRun_dotdot false rest _ _ hb, encBuf_nil, if_neg (lt_irrefl _)]
      rfl
  · rw [List.concat_eq_append] at hwf ⊢
    have he : plainElem e := hwf.2 e (by simp)
    have hgt := encBuf_snoc_length_gt rooted k es0 e he.1
    obtain ⟨d, r, hpush, hback⟩ := backtrack_pushElem rooted k es0 e he.1 he.2.1
    have hwf0 : wfBuf rooted k es0 := And.intro hwf.1 (fun x hx => hwf.2 x (by simp [hx]))
    refine ⟨k, es0, hwf0, fun rest hb => ?_⟩
    rw [cleanRun_dotdot rooted rest _ _ hb, if_pos hgt, encBuf_snoc, hpush]
    simp only [hback]

theorem dropWhile_head (p : Char → Bool) (l : List Char) :
    l.dropWhile p = [] ∨ ∃ a t, l.dropWhile p = a :: t ∧ p a = false := by
  induction l with
  | nil => exact Or.inl rfl
  | cons a t ih =>
    by_cases ha : p a = true
    · simpa [List.dropWhile_cons, ha] using ih
    · exact Or.inr ⟨a, t, by simp [List.dropWhile_cons, ha], by simpa using ha⟩

/-- The first element of an input that ends with a separator and does not begin with one. -/
theorem first_elem_split (c : Char) (z1 : List Char) (hc : c ≠ '/')
    (hlast : (c :: z1).getLast? = some '/') :
    ∃ e z2, c :: z1 = e ++ z2 ∧ e ≠ [] ∧ '/' ∉ e ∧ z2.head? = some '/' ∧
      z2.getLast? = some '/' ∧ z2.length < (c :: z1).length := by
  have hsplit := List.takeWhile_append_dropWhile (fun b => b != '/') (c :: z1)
  have hcne : (c != '/') = true := by simpa using hc
  have hene : (c :: z1).takeWhile (fun b => b != '/') ≠ [] := by
    rw [List.takeWhile_cons, if_pos hcne]
    exact List.cons_ne_nil _ _
  have hnot : '/' ∉ (c :: z1).takeWhile (fun b => b != '/') := by
    intro hmem
    have := List.mem_takeWhile_imp hmem
    simp at this
  rcases dropWhile_head (fun b => b != '/') (c :: z1) with hnil | ⟨a, t, hcons, ha⟩
  · exfalso
    rw [hnil, List.append_nil] at hsplit
    rw [← hsplit] at hlast
    exact hnot (List.mem_of_mem_getLast? hlast)
  · have ha' : a = '/' := by simpa using ha
    subst ha'
    refine ⟨_, _, hsplit.symm, hene, hnot, by rw [hcons]; rfl, ?_, ?_⟩
    · have hl : (c :: z1).getLast? = ((c :: z1).dropWhile (fun b => b != '/')).getLast? := by
        conv_lhs => rw [← hsplit]
        rw [hcons, List.getLast?_append_cons]
      rw [← hl]
      exact hlast
    · have hlen := congrArg List.length hsplit
      rw [List.length_append] at hlen
      have := List.length_pos.2 hene
      omega

/-- Reading a fragment that ends with a separator takes a well-formed buffer to a
well-formed buffer, whatever follows the fragment. -/
theorem cleanRun_fragment (rooted : Bool) :
    ∀ (n : Nat) (z : List Char), z.length ≤ n → endsWithSep z →
      ∀ (k : Nat) (es : List (List Char)), wfBuf rooted k es →
        ∃ k' es', wfBuf rooted k' es' ∧ ∀ tail,
          cleanRun rooted (z ++ tail) (encBuf rooted k es) (baseBuf rooted k).length
            = cleanRun rooted tail (encBuf rooted k' es') (baseBuf rooted k').length := by
  intro n
  induction n with
  | zero =>
    intro z hz _ k es hwf
    have : z = [] := List.length_eq_zero.1 (Nat.le_zero.1 hz)
    subst this
    exact ⟨k, es, hwf, fun _ => rfl⟩
  | succ n ih =>
    intro z hz hend k es hwf
    cases z with
    | nil => exact ⟨k, es, hwf, fun _ => rfl⟩
    | cons c z1 =>
      have hlast : (c :: z1).getLast? = some '/' := by
        rcases hend with h | h
        · cases h
        · exact h
      by_cases hc : c = '/'
      · subst hc
        have hend1 : endsWithSep z1 := by
          cases z1 with
          | nil => exact Or.inl rfl
          | cons a t =>
            right
            rw [List.getLast?_cons_cons] at hlast
            exact hlast
        obtain ⟨k', es', hwf', hrun⟩ := ih z1 (by simpa using hz) hend1 k es hwf
        refine ⟨k', es', hwf', fun tail => ?_⟩
        rw [List.cons_append, cleanRun_sep]
        exact hrun tail
      · obtain ⟨e, z2, hsplit, hene, hnot, hhead, hlast2, hlen⟩ := first_elem_split c z1 hc hlast
        have hz2 : z2.length ≤ n := by
          have : (c :: z1).length ≤ n + 1 := hz
          omega
        have hbnd : ∀ tail, atBoundary (z2 ++ tail) := by
          intro tail
          right
          cases z2 with
          | nil => simp at hhead
          | cons a t => simpa using hhead
        rw [hsplit]
        by_cases hdot : e = ['.']
        · subst hdot
          obtain ⟨k', es', hwf', hrun⟩ := ih z2 hz2 (Or.inr hlast2) k es hwf
          refine ⟨k', es', hwf', fun tail => ?_⟩
          rw [List.append_assoc, List.singleton_append, cleanRun_dot rooted _ _ _ (hbnd tail)]
          exact hrun tail
        · by_cases hdd : e = ['.', '.']
          · subst hdd
            obtain ⟨k1, es1, hwf1, hstep⟩ := cleanRun_dotdot_wf rooted k es hwf
            obtain ⟨k', es', hwf', hrun⟩ := ih z2 hz2 (Or.inr hlast2) k1 es1 hwf1
            refine ⟨k', es', hwf', fun tail => ?_⟩
            rw [List.append_assoc]
            change cleanRun rooted ('.' :: '.' :: (z2 ++ tail)) _ _ = _
            rw [hstep _ (hbnd tail)]
            exact hrun tail
          · have hplain : plainElem e := ⟨hene, hnot, hdot, hdd⟩
            have hwf1 : wfBuf rooted k (es ++ [e]) := by
              refine And.intro hwf.1 (fun x hx => ?_)
              rcases List.mem_append.1 hx with h | h
              · exact hwf.2 x h
              · rw [List.mem_singleton.1 h]
                exact hplain
            obtain ⟨k', es', hwf', hrun⟩ := ih z2 hz2 (Or.inr hlast2) k (es ++ [e]) hwf1
            refine ⟨k', es', hwf', fun tail => ?_⟩
            rw [List.append_assoc, cleanRun_elem rooted e _ _ _ hplain (hbnd tail),
              ← encBuf_snoc]
            exact hrun tail

/-! ### Reading a cleaned path again -/

theorem pushElem_reverse (rooted : Bool) (rout e : List Char) :
    (pushElem rooted rout e).reverse = rout.reverse ++ sepText rooted rout ++ e := by
  unfold pushElem sepText
  split <;> simp

theorem foldl_pushElem_reverse (rooted : Bool) (es : List (List Char)) (rout : List Char) :
    (es.foldl (pushElem rooted) rout).reverse = rout.reverse ++ elemsText rooted rout es := by
  induction es generalizing rout with
  | nil => simp [elemsText]
  | cons e es ih =>
    rw [List.foldl_cons, ih, pushElem_reverse, elemsText]
    simp [List.append_assoc]

theorem needSep_snoc (rooted : Bool) (k : Nat) (es : List (List Char)) (e : List Char)
    (hne : e ≠ []) : needSep rooted (encBuf rooted k (es ++ [e])) = true := by
  have hgt := encBuf_snoc_length_gt rooted k es e hne
  cases rooted with
  | true =>
    rw [baseBuf_length_rooted] at hgt
    have : (encBuf true k (es ++ [e])).length ≠ 1 := by omega
    simp [needSep, this]
  | false =>
    have : encBuf false k (es ++ [e]) ≠ [] := by
      intro h
      rw [h] at hgt
      simp at hgt
    simp [needSep, this]

theorem elemsText_boundary (rooted : Bool) (k : Nat) (es1 : List (List Char)) (e : List Char)
    (hne : e ≠ []) (es2 : List (List Char)) (tail : List Char) (hb : atBoundary tail) :
    atBoundary (elemsText rooted (encBuf rooted k (es1 ++ [e])) es2 ++ tail) := by
  cases es2 with
  | nil => simpa [elemsText] using hb
  | cons e2 es2 =>
    right
    simp [elemsText, sepText, needSep_snoc rooted k es1 e hne]

/-- Reading the text of the elements `es2` on top of the buffer of `es1` rebuilds the buffer
of `es1 ++ es2`. -/
theorem cleanRun_reread (rooted : Bool) (k : Nat) :
    ∀ (es2 es1 : List (List Char)) (tail : List Char), wfBuf rooted k (es1 ++ es2) →
      atBoundary tail →
      cleanRun rooted (elemsText rooted (encBuf rooted k es1) es2 ++ tail)
          (encBuf rooted k es1) (baseBuf rooted k).length
        = cleanRun rooted tail (encBuf rooted k (es1 ++ es2)) (baseBuf rooted k).length := by
  intro es2
  induction es2 with
  | nil =>
    intro es1 tail _ _
    simp [elemsText]
  | cons e es2 ih =>
    intro es1 tail hwf hb
    have he : plainElem e := hwf.2 e (by simp)
    have hwf' : wfBuf rooted k ((es1 ++ [e]) ++ es2) := by
      rw [List.append_assoc]
      exact hwf
    have hnext := elemsText_boundary rooted k es1 e he.1 es2 tail hb
    have hih := ih (es1 ++ [e]) tail hwf' hb
    rw [List.append_assoc] at hih
    rw [elemsText, ← encBuf_snoc]
    have hstep : cleanRun rooted
        (e ++ (elemsText rooted (encBuf rooted k (es1 ++ [e])) es2 ++ tail))
        (encBuf rooted k es1) (baseBuf rooted k).length
        = cleanRun rooted (elemsText rooted (encBuf rooted k (es1 ++ [e])) es2 ++ tail)
          (encBuf rooted k (es1 ++ [e])) (baseBuf rooted k).length := by
      rw [cleanRun_elem rooted e _ _ _ he hnext, ← encBuf_snoc]
    unfold sepText
    split
    · simp only [List.append_assoc, List.singleton_append, List.cons_append, cleanRun_sep,
        List.nil_append]
      rw [hstep, hih]
      simp
    · simp only [List.append_assoc, List.nil_append]
      rw [hstep, hih]
      simp

theorem upsBuf_length_pos (k : Nat) : 0 < (upsBuf (k + 1)).length := by
  simp [upsBuf]

/-- Reading `k` leading `..` elements of a relative path rebuilds their buffer. -/
theorem cleanRun_reread_ups :
    ∀ (k : Nat) (tail : List Char), (k = 0 ∨ atBoundary tail) →
      cleanRun false ((upsBuf k).reverse ++ tail) [] 0
        = cleanRun false tail (upsBuf k) (upsBuf k).length := by
  intro k
  induction k with
  | zero =>
    intro tail _
    simp [upsBuf]
  | succ k ih =>
    intro tail hb
    have hbt : atBoundary tail := by
      rcases hb with h | h
      · cases h
      · exact h
    have hdd : cleanRun false ('.' :: '.' :: tail) (upsBuf k) (upsBuf k).length
        = cleanRun false tail (upsBuf (k + 1)) (upsBuf (k + 1)).length := by
      rw [cleanRun_dotdot false tail _ _ hbt, if_neg (lt_irrefl _)]
      rfl
    cases k with
    | zero =>
      have : (upsBuf 1).reverse ++ tail = '.' :: '.' :: tail := by simp [upsBuf]
      rw [this]
      exact hdd
    | succ j =>
      have hpos := upsBuf_length_pos j
      have htxt : (upsBuf (j + 1 + 1)).reverse ++ tail
          = (upsBuf (j + 1)).reverse ++ ('/' :: '.' :: '.' :: tail) := by
        conv_lhs => rw [upsBuf]
        simp [hpos]
      rw [htxt, ih ('/' :: '.' :: '.' :: tail) (Or.inr (Or.inr rfl)), cleanRun_sep]
      exact hdd

/-! ### `Clean` and `Join` on paths that end with a plain element -/

theorem string_mk_ne_empty (c : Char) (rest : List Char) : (⟨c :: rest⟩ : String) ≠ "" := by
  intro h
  have := congrArg String.data h
  simp at this

theorem filepathClean_rooted (rest : List Char) :
    filepathClean ⟨'/' :: rest⟩ =
      if (cleanRun true rest ['/'] 1).length == 0 then "."
      else ⟨(cleanRun true rest ['/'] 1).reverse⟩ := by
  have hfuel : cleanLoop true (rest.length + 1) rest ['/'] 1 = cleanRun true rest ['/'] 1 :=
    cleanLoop_fuel true _ _ rest _ _ (by omega) (le_refl _)
  unfold filepathClean
  rw [if_neg (string_mk_ne_empty _ _)]
  simp only [List.head?_cons, beq_self_eq_true, if_true, List.length_cons, List.tail_cons,
    hfuel]

theorem filepathClean_relative (c : Char) (rest : List Char) (hc : c ≠ '/') :
    filepathClean ⟨c :: rest⟩ =
      if (cleanRun false (c :: rest) [] 0).length == 0 then "."
      else ⟨(cleanRun false (c :: rest) [] 0).reverse⟩ := by
  have hhead : (some c == some '/') = false := by simpa using hc
  unfold filepathClean
  rw [if_neg (string_mk_ne_empty _ _)]
  simp only [List.head?_cons, hhead, Bool.false_eq_true, if_false]
  rfl

theorem encBuf_snoc_ne_nil (rooted : Bool) (k : Nat) (es : List (List Char)) (e : List Char)
    (hne : e ≠ []) : ((encBuf rooted k (es ++ [e])).length == 0) = false := by
  have := encBuf_snoc_length_gt rooted k es e hne
  simp only [beq_eq_false_iff_ne, ne_eq]
  omega

/-- The run of the loop on a fragment that ends with a separator, followed by one last
plain element. -/
theorem cleanRun_fragment_name (rooted : Bool) (z name : List Char) (hz : endsWithSep z)
    (hn : plainElem name) (k : Nat) (es : List (List Char)) (hwf : wfBuf rooted k es) :
    ∃ k' es', wfBuf rooted k' es' ∧
      cleanRun rooted (z ++ name) (encBuf rooted k es) (baseBuf rooted k).length
        = encBuf rooted k' (es' ++ [name]) := by
  obtain ⟨k', es', hwf', hrun⟩ := cleanRun_fragment rooted z.length z (le_refl _) hz k es hwf
  refine ⟨k', es', hwf', ?_⟩
  rw [hrun name]
  have := cleanRun_elem rooted name [] (encBuf rooted k' es') (baseBuf rooted k').length hn
    (Or.inl rfl)
  rw [List.append_nil] at this
  rw [this, cleanRun_nil, encBuf_snoc]

/-- The shape of `Clean` on a path that ends with a plain element: the element is the last
thing in the buffer. -/
theorem filepathClean_shape (z name : List Char) (hz : endsWithSep z) (hn : plainElem name) :
    ∃ rooted k es, wfBuf rooted k es ∧
      filepathClean ⟨z ++ name⟩ = ⟨(encBuf rooted k (es ++ [name])).reverse⟩ := by
  have hw0 : ∀ rooted, wfBuf rooted 0 [] := fun rooted => And.intro (fun _ => rfl) (by simp)
  cases z with
  | nil =>
    obtain ⟨c, rest, rfl⟩ : ∃ c rest, name = c :: rest := by
      cases name with
      | nil => exact absurd rfl hn.1
      | cons c rest => exact ⟨c, rest, rfl⟩
    have hc : c ≠ '/' := fun h => hn.2.1 (h ▸ List.mem_cons_self _ _)
    obtain ⟨k', es', hwf', hrun⟩ := cleanRun_fragment_name false [] (c :: rest) hz hn 0 [] (hw0 _)
    refine ⟨false, k', es', hwf', ?_⟩
    rw [List.nil_append] at hrun ⊢
    have hrun' : cleanRun false (c :: rest) [] 0 = encBuf false k' (es' ++ [c :: rest]) := hrun
    rw [filepathClean_relative c rest hc, hrun', encBuf_snoc_ne_nil false k' es' _ hn.1]
    simp
  | cons c z1 =>
    have hlast : (c :: z1).getLast? = some '/' := by
      rcases hz with h | h
      · cases h
      · exact h
    by_cases hc : c = '/'
    · subst hc
      have hend1 : endsWithSep z1 := by
        cases z1 with
        | nil => exact Or.inl rfl
        | cons a t =>
          right
          rw [List.getLast?_cons_cons] at hlast
          exact hlast
      obtain ⟨k', es', hwf', hrun⟩ := cleanRun_fragment_name true z1 name hend1 hn 0 [] (hw0 _)
      refine ⟨true, k', es', hwf', ?_⟩
      have hrun' : cleanRun true (z1 ++ name) ['/'] 1 = encBuf true k' (es' ++ [name]) := hrun
      rw [List.cons_append, filepathClean_rooted, hrun', encBuf_snoc_ne_nil true k' es' _ hn.1]
      simp
    · obtain ⟨k', es', hwf', hrun⟩ :=
        cleanRun_fragment_name false (c :: z1) name hz hn 0 [] (hw0 _)
      refine ⟨false, k', es', hwf', ?_⟩
      have hrun' : cleanRun false (c :: (z1 ++ name)) [] 0
          = encBuf false k' (es' ++ [name]) := hrun
      rw [List.cons_append, filepathClean_relative c _ hc, hrun',
        encBuf_snoc_ne_nil false k' es' _ hn.1]
      simp

theorem upsBuf_reverse_head (j : Nat) : (upsBuf (j + 1)).reverse.head? = some '.' := by
  induction j with
  | zero => rfl
  | succ j ih =>
    have hpos := upsBuf_length_pos j
    have htxt : (upsBuf (j + 1 + 1)).reverse = (upsBuf (j + 1)).reverse ++ ['/', '.', '.'] := by
      conv_lhs => rw [upsBuf]
      simp [hpos]
    rw [htxt, List.head?_append, ih]
    rfl

/-- The last step of a second reading: after the old text come a separator and a plain
element. -/
theorem cleanRun_sep_name (rooted : Bool) (k : Nat) (es : List (List Char)) (e name : List Char)
    (he : e ≠ []) (hn : plainElem name) :
    (cleanRun rooted ('/' :: name) (encBuf rooted k (es ++ [e])) (baseBuf rooted k).length).reverse
      = (encBuf rooted k (es ++ [e])).reverse ++ '/' :: name := by
  have := cleanRun_elem rooted name [] (encBuf rooted k (es ++ [e])) (baseBuf rooted k).length hn
    (Or.inl rfl)
  rw [List.append_nil] at this
  rw [cleanRun_sep, this, cleanRun_nil, pushElem_reverse, sepText, needSep_snoc rooted k es e he]
  simp

/-- Cleaning a cleaned path that ends with a plain element, a separator and one more plain
element changes nothing. -/
theorem filepathClean_again (rooted : Bool) (k : Nat) (es : List (List Char)) (e name : List Char)
    (hwf : wfBuf rooted k (es ++ [e])) (hn : plainElem name) :
    filepathClean ⟨(encBuf rooted k (es ++ [e])).reverse ++ '/' :: name⟩
      = ⟨(encBuf rooted k (es ++ [e])).reverse ++ '/' :: name⟩ := by
  have he : plainElem e := hwf.2 e (by simp)
  have hfinal := cleanRun_sep_name rooted k es e name he.1 hn
  have hnonempty : ∀ r : List Char, r.reverse = (encBuf rooted k (es ++ [e])).reverse ++ '/' :: name
      → (r.length == 0) = false := by
    intro r hr
    have := congrArg List.length hr
    simp only [List.length_reverse, List.length_append, List.length_cons] at this
    simp only [beq_eq_false_iff_ne, ne_eq]
    omega
  have htext : (encBuf rooted k (es ++ [e])).reverse
      = (baseBuf rooted k).reverse ++ elemsText rooted (encBuf rooted k []) (es ++ [e]) :=
    foldl_pushElem_reverse rooted (es ++ [e]) (baseBuf rooted k)
  have hread := cleanRun_reread rooted k (es ++ [e]) [] ('/' :: name)
    (by simpa using hwf) (Or.inr rfl)
  rw [List.nil_append] at hread
  cases rooted with
  | true =>
    have hbase : (baseBuf true k).reverse = ['/'] := rfl
    have hpath : (encBuf true k (es ++ [e])).reverse ++ '/' :: name
        = '/' :: (elemsText true (encBuf true k []) (es ++ [e]) ++ '/' :: name) := by
      rw [htext, hbase]
      simp
    have hrun : cleanRun true (elemsText true (encBuf true k []) (es ++ [e]) ++ '/' :: name)
        ['/'] 1 = cleanRun true ('/' :: name) (encBuf true k (es ++ [e])) 1 := hread
    conv_lhs => rw [hpath]
    rw [filepathClean_rooted, hrun]
    have hfinal' : (cleanRun true ('/' :: name) (encBuf true k (es ++ [e])) 1).reverse
        = (encBuf true k (es ++ [e])).reverse ++ '/' :: name := hfinal
    rw [hnonempty _ hfinal', hfinal']
    simp
  | false =>
    have hbase : baseBuf false k = upsBuf k := rfl
    -- the text does not begin with a separator
    obtain ⟨c, rest, hcons, hc⟩ : ∃ c rest,
        (encBuf false k (es ++ [e])).reverse ++ '/' :: name = c :: rest ∧ c ≠ '/' := by
      rw [htext, hbase]
      cases k with
      | zero =>
        cases es with
        | nil =>
          obtain ⟨c, r, rfl⟩ : ∃ c r, e = c :: r := by
            cases e with
            | nil => exact absurd rfl he.1
            | cons c r => exact ⟨c, r, rfl⟩
          refine ⟨c, _, by simp [upsBuf, elemsText, sepText, needSep, encBuf, baseBuf]; rfl,
            fun h => he.2.1 (h ▸ List.mem_cons_self _ _)⟩
        | cons e1 es1 =>
          have he1 : plainElem e1 := hwf.2 e1 (by simp)
          obtain ⟨c, r, rfl⟩ : ∃ c r, e1 = c :: r := by
            cases e1 with
            | nil => exact absurd rfl he1.1
            | cons c r => exact ⟨c, r, rfl⟩
          refine ⟨c, _, by simp [upsBuf, elemsText, sepText, needSep, encBuf, baseBuf]; rfl,
            fun h => he1.2.1 (h ▸ List.mem_cons_self _ _)⟩
      | succ j =>
        have hh := upsBuf_reverse_head j
        cases hrev : (upsBuf (j + 1)).reverse with
        | nil => rw [hrev] at hh; cases hh
        | cons c r =>
          rw [hrev] at hh
          simp only [List.head?_cons, Option.some.injEq] at hh
          subst hh
          exact ⟨'.', r ++ (elemsText false (encBuf false (j + 1) []) (es ++ [e]) ++ '/' :: name),
            by simp, by decide⟩
    have hups := cleanRun_reread_ups k
      (elemsText false (encBuf false k []) (es ++ [e]) ++ '/' :: name) (by
        cases k with
        | zero => exact Or.inl rfl
        | succ j =>
          right
          right
          have hpos := upsBuf_length_pos j
          have hne : upsBuf (j + 1) ≠ [] := fun h => by rw [h] at hpos; simp at hpos
          cases es with
          | nil => simp [elemsText, sepText, needSep, encBuf, baseBuf, hne]
          | cons e1 es1 => simp [elemsText, sepText, needSep, encBuf, baseBuf, hne])
    have hrun : cleanRun false ((encBuf false k (es ++ [e])).reverse ++ '/' :: name) [] 0
        = cleanRun false ('/' :: name) (encBuf false k (es ++ [e])) (baseBuf false k).length := by
      rw [htext, hbase, List.append_assoc, hups]
      exact hread
    have hclean := filepathClean_relative c rest hc
    rw [← hcons] at hclean
    rw [hclean, hrun, hnonempty _ hfinal, hfinal]
    simp

theorem string_append_data (a b : String) : a ++ b = ⟨a.data ++ b.data⟩ := by
  apply String.ext
  simp

/-- `Join` of a cleaned path that ends with a plain element and one more plain element just
appends a separator and the element. -/
theorem filepathJoin_clean_name (z name name2 : List Char) (hz : endsWithSep z)
    (hn : plainElem name) (hn2 : plainElem name2) :
    filepathJoin [filepathClean ⟨z ++ name⟩, ⟨name2⟩]
      = ⟨(filepathClean ⟨z ++ name⟩).data ++ '/' :: name2⟩ := by
  obtain ⟨rooted, k, es, hwf, hshape⟩ := filepathClean_shape z name hz hn
  have hwf' : wfBuf rooted k (es ++ [name]) := by
    refine And.intro hwf.1 (fun x hx => ?_)
    rcases List.mem_append.1 hx with h | h
    · exact hwf.2 x h
    · rw [List.mem_singleton.1 h]
      exact hn
  have hne : filepathClean ⟨z ++ name⟩ ≠ "" := by
    rw [hshape]
    intro h
    have hd := congrArg String.data h
    have hl := encBuf_snoc_ne_nil rooted k es name hn.1
    have hd' : encBuf rooted k (es ++ [name]) = [] := by simpa using hd
    rw [hd'] at hl
    simp at hl
  have hjoin : stringsJoin [filepathClean ⟨z ++ name⟩, ⟨name2⟩] "/"
      = ⟨(filepathClean ⟨z ++ name⟩).data ++ '/' :: name2⟩ := by
    simp only [stringsJoin, string_append_data]
    simp
  rw [filepathJoin, if_pos hne, hjoin, hshape]
  exact filepathClean_again rooted k es name name2 hwf' hn2

/-! ## Claims on `internal/config/paths.go` -/

/-- C6, failing input: on linux with neither `XDG_CONFIG_HOME` nor `HOME` set, the three
directories are `.config/pulse`, `.config/pulse/state` and `.config/pulse/logs`, none of
which `filepath.IsAbs` accepts; with `XDG_CONFIG_HOME=cfg` the first is `cfg/pulse`. -/
theorem pulse_dirs_relative_without_home :
    GetPulseDir unixFilepath ⟨"linux", "", "", "", ""⟩ = ".config/pulse" ∧
    GetStateDir unixFilepath ⟨"linux", "", "", "", ""⟩ = ".config/pulse/state" ∧
    GetLogsDir unixFilepath ⟨"linux", "", "", "", ""⟩ = ".config/pulse/logs" ∧
    unixFilepath.IsAbs (GetPulseDir unixFilepath ⟨"linux", "", "", "", ""⟩) = false ∧
    unixFilepath.IsAbs (GetStateDir unixFilepath ⟨"linux", "", "", "", ""⟩) = false ∧
    unixFilepath.IsAbs (GetLogsDir unixFilepath ⟨"linux", "", "", "", ""⟩) = false ∧
    GetPulseDir unixFilepath ⟨"linux", "", "", "cfg", "/home/u"⟩ = "cfg/pulse" ∧
    unixFilepath.IsAbs (GetPulseDir unixFilepath ⟨"linux", "", "", "cfg", "/home/u"⟩) = false ∧
    GetPulseDir unixFilepath ⟨"linux", "", "", "", "/home/u"⟩ = "/home/u/.config/pulse" ∧
    unixFilepath.IsAbs (GetPulseDir unixFilepath ⟨"linux", "", "", "", "/home/u"⟩) = true := by
  decide

theorem stringsJoin_cons_cons (e e2 : String) (rest : List String) (sep : String) :
    stringsJoin (e :: e2 :: rest) sep = e ++ sep ++ stringsJoin (e2 :: rest) sep := rfl

theorem stringsJoin_snoc (l : List String) (name sep : String) (hl : l ≠ []) :
    stringsJoin (l ++ [name]) sep = stringsJoin l sep ++ sep ++ name := by
  induction l with
  | nil => exact absurd rfl hl
  | cons e rest ih =>
    cases rest with
    | nil => rfl
    | cons e2 rest2 =>
      have h := ih (List.cons_ne_nil _ _)
      rw [List.cons_append, List.cons_append, stringsJoin_cons_cons, ← List.cons_append, h,
        stringsJoin_cons_cons]
      simp only [String.append_assoc]

/-- `Join` of elements of which the last is plain cleans a text that ends with that
element, standing alone or after a separator. -/
theorem filepathJoin_last (es : List String) (name : String) (hn : plainElem name.data) :
    ∃ z, endsWithSep z ∧ filepathJoin (es ++ [name]) = filepathClean ⟨z ++ name.data⟩ := by
  have hne : name ≠ "" := by
    intro h
    rw [h] at hn
    exact hn.1 rfl
  induction es with
  | nil =>
    refine ⟨[], Or.inl rfl, ?_⟩
    rw [List.nil_append, filepathJoin, if_pos hne, stringsJoin, List.nil_append]
  | cons e rest ih =>
    by_cases he : e = ""
    · obtain ⟨z, hz, hjoin⟩ := ih
      refine ⟨z, hz, ?_⟩
      rw [List.cons_append, filepathJoin, if_neg (not_not.2 he)]
      exact hjoin
    · refine ⟨(stringsJoin (e :: rest) "/").data ++ ['/'], Or.inr (by simp), ?_⟩
      rw [List.cons_append, filepathJoin, if_pos he, ← List.cons_append,
        stringsJoin_snoc _ _ _ (List.cons_ne_nil _ _)]
      congr 1

/-- On a platform other than Windows `GetPulseDir` is `Clean` of a text that ends with the
element `pulse`. -/
theorem pulseDir_shape (env : Env) (hw : env.GOOS ≠ "windows") :
    ∃ z, endsWithSep z ∧ GetPulseDir unixFilepath env = filepathClean ⟨z ++ "pulse".data⟩ := by
  have hp : plainElem "pulse".data := by
    unfold plainElem
    decide
  unfold GetPulseDir
  rw [if_neg hw]
  by_cases hd : env.GOOS = "darwin"
  · rw [if_pos hd]
    exact filepathJoin_last [_, _, _] "pulse" hp
  · rw [if_neg hd]
    exact filepathJoin_last [_] "pulse" hp

/-- On a platform other than Windows a directory joined under `GetPulseDir` is
`GetPulseDir`, a separator and the name of the directory. -/
theorem join_under_pulseDir (env : Env) (hw : env.GOOS ≠ "windows") (name : String)
    (hn : plainElem name.data) :
    filepathJoin [GetPulseDir unixFilepath env, name]
      = GetPulseDir unixFilepath env ++ "/" ++ name := by
  have hp : plainElem "pulse".data := by
    unfold plainElem
    decide
  obtain ⟨z, hz, hshape⟩ := pulseDir_shape env hw
  rw [hshape]
  have := filepathJoin_clean_name z "pulse".data name.data hz hp hn
  rw [this]
  apply String.ext
  simp

/-- On a platform other than Windows, whatever the environment variables and the home
directory, `GetStateDir` and `GetLogsDir` are `GetPulseDir` followed by `/state` and
`/logs`; each has `GetPulseDir` as prefix and ends with `state`, respectively `logs`.
Nothing is said here of Windows, whose `path/filepath` is not embedded. -/
theorem posix_state_and_logs_dirs (env : Env) (hw : env.GOOS ≠ "windows") :
    GetStateDir unixFilepath env = GetPulseDir unixFilepath env ++ "/" ++ "state" ∧
    GetLogsDir unixFilepath env = GetPulseDir unixFilepath env ++ "/" ++ "logs" ∧
    stringsHasPrefix (GetStateDir unixFilepath env) (GetPulseDir unixFilepath env) = true ∧
    stringsHasSuffix (GetStateDir unixFilepath env) "state" = true ∧
    stringsHasPrefix (GetLogsDir unixFilepath env) (GetPulseDir unixFilepath env) = true ∧
    stringsHasSuffix (GetLogsDir unixFilepath env) "logs" = true := by
  have hs : GetStateDir unixFilepath env = GetPulseDir unixFilepath env ++ "/" ++ "state" :=
    join_under_pulseDir env hw "state" (by unfold plainElem; decide)
  have hl : GetLogsDir unixFilepath env = GetPulseDir unixFilepath env ++ "/" ++ "logs" :=
    join_under_pulseDir env hw "logs" (by unfold plainElem; decide)
  refine ⟨hs, hl, ?_, ?_, ?_, ?_⟩
  · rw [hs, stringsHasPrefix_iff]
    simp [String.data_append, List.append_assoc]
  · rw [hs, stringsHasSuffix_iff]
    simp only [String.data_append]
    exact List.suffix_append _ _
  · rw [hl, stringsHasPrefix_iff]
    simp [String.data_append, List.append_assoc]
  · rw [hl, stringsHasSuffix_iff]
    simp only [String.data_append]
    exact List.suffix_append _ _

end Pulse
